import Mathlib

set_option maxHeartbeats 1000000

/-!
Shallow embedding of the maze mapping and navigation engine of
`rusty_capybara` (file `src/map.rs`).

Rust `HashMap` values are modelled as association lists: `alookup` is
`HashMap::get` (keys are unique by construction, so first-match lookup
agrees with hash lookup), `ainsert` is `HashMap::insert` and `amodify`
is mutation through `HashMap::get_mut`.  The order of an association
list models the (unspecified) iteration order of the hash map: Rust
iterates `HashMap` entries in an arbitrary order that is not a function
of the logical key-value content, and every list order is one possible
iteration order.

Rust functions that can panic (`unwrap`, indexing, the
`panic!` in `coordinate_to_direction`) or diverge (the recursive `bfs`)
are modelled in `Option`, with `none` for a panic or for running out of
fuel; fuel is threaded through `bfs`, `get_direction` and `move_one`.
-/

/-- Rust `type Position = (i32, i32);` (mathematical integers; all values in
the claims stay far from the i32 boundaries, where wrapping would matter). -/
abbrev Position : Type := Int × Int

/-- Rust `enum Direction`. -/
inductive Direction : Type where
  | Up
  | Down
  | Left
  | Right
deriving DecidableEq, Repr

/-- Rust `Direction::right` (rotate 90 degrees clockwise). -/
def Direction.right : Direction → Direction
  | Direction.Up => Direction.Right
  | Direction.Down => Direction.Left
  | Direction.Left => Direction.Up
  | Direction.Right => Direction.Down

/-- Rust `Direction::left` (rotate 90 degrees counter-clockwise). -/
def Direction.left : Direction → Direction
  | Direction.Up => Direction.Left
  | Direction.Down => Direction.Right
  | Direction.Left => Direction.Down
  | Direction.Right => Direction.Up

/-- Rust `Direction::back` (rotate 180 degrees). -/
def Direction.back : Direction → Direction
  | Direction.Up => Direction.Down
  | Direction.Down => Direction.Up
  | Direction.Left => Direction.Right
  | Direction.Right => Direction.Left

/-- Rust `enum Kind`. -/
inductive Kind : Type where
  | Start
  | Unknown
  | Empty
  | Checkpoint
  | Blue
  | Victim
  | Ramp
  | Black
deriving DecidableEq, Repr

/-- First-match association list lookup; models `HashMap::get`. -/
def alookup {α β : Type} [DecidableEq α] : List (α × β) → α → Option β
  | [], _ => none
  | (k, v) :: rest, a => if k = a then some v else alookup rest a

/-- Replace-or-append insertion; models `HashMap::insert`. -/
def ainsert {α β : Type} [DecidableEq α] : List (α × β) → α → β → List (α × β)
  | [], a, b => [(a, b)]
  | (k, v) :: rest, a, b => if k = a then (a, b) :: rest else (k, v) :: ainsert rest a b

/-- In-place update of the entry at a key (no-op when the key is absent);
models mutation through `HashMap::get_mut`. -/
def amodify {α β : Type} [DecidableEq α] : List (α × β) → α → (β → β) → List (α × β)
  | [], _, _ => []
  | (k, v) :: rest, a, f => if k = a then (k, f v) :: rest else (k, v) :: amodify rest a f

/-- Rust `struct Cell`.  The `neighbors` association list models
`HashMap<Direction, Position>`, list order standing for hash-map
iteration order. -/
structure Cell : Type where
  pos : Position
  kind : Kind
  neighbors : List (Direction × Position)
deriving DecidableEq, Repr

/-- Rust `Cell::new`. -/
def Cell.new (pos : Position) (kind : Kind) : Cell :=
  { pos := pos, kind := kind, neighbors := [] }

/-- Lookup of a neighbor link, `self.neighbors.get(&direction)`. -/
def Cell.getNeighbor (c : Cell) (d : Direction) : Option Position :=
  alookup c.neighbors d

/-- Rust `Cell::add_neighbor`: a no-op when a link in that direction
already exists, otherwise inserts the link (a fresh key appends in our
iteration-order model). -/
def Cell.add_neighbor (c : Cell) (d : Direction) (q : Position) : Cell :=
  if (c.getNeighbor d).isSome then c
  else { c with neighbors := c.neighbors ++ [(d, q)] }

/-- Rust `struct Maze`. -/
structure Maze : Type where
  dir : Direction
  pos : Position
  last_checkpoint : Position
  cells : List (Position × Cell)
  path : List Position
deriving DecidableEq, Repr

/-- Rust `Maze::new`. -/
def Maze.new : Maze :=
  { dir := Direction.Up
    pos := (0, 0)
    last_checkpoint := (0, 0)
    cells := [((0, 0), Cell.new (0, 0) Kind.Start)]
    path := [] }

/-- The coordinate delta used for a heading throughout `map.rs`
(`Up` is y - 1, `Down` is y + 1, `Left` is x - 1, `Right` is x + 1). -/
def stepPos (p : Position) (d : Direction) : Position :=
  match d with
  | Direction.Up => (p.1, p.2 - 1)
  | Direction.Down => (p.1, p.2 + 1)
  | Direction.Left => (p.1 - 1, p.2)
  | Direction.Right => (p.1 + 1, p.2)

/-- Rust `Maze::coordinate_to_direction`; `none` models the
`panic!("Invalid position!")` arm. -/
def Maze.coordinate_to_direction (m : Maze) (p : Position) : Option Direction :=
  if p.1 = m.pos.1 ∧ p.2 = m.pos.2 - 1 then some Direction.Up
  else if p.1 = m.pos.1 ∧ p.2 = m.pos.2 + 1 then some Direction.Down
  else if p.1 = m.pos.1 - 1 ∧ p.2 = m.pos.2 then some Direction.Left
  else if p.1 = m.pos.1 + 1 ∧ p.2 = m.pos.2 then some Direction.Right
  else none

/-- State of the `bfs` while-loop: the work queue, the visited list and
the parent-pointer map, exactly the three locals of `Maze::bfs`. -/
structure BfsFrontier : Type where
  queue : List Position
  visited : List Position
  parent : List (Position × Position)
deriving DecidableEq, Repr

/-- Body of the inner `for neighbor in cell.neighbors.values()` loop of
`Maze::bfs`: skip visited, missing and Black neighbors, otherwise
enqueue, mark visited and record the parent pointer. -/
def bfsPush (cells : List (Position × Cell)) (current : Position)
    (st : BfsFrontier) (nb : Position) : BfsFrontier :=
  if st.visited.contains nb then st
  else
    match alookup cells nb with
    | none => st
    | some nc =>
      if nc.kind = Kind.Black then st
      else
        { queue := st.queue ++ [nb]
          visited := st.visited ++ [nb]
          parent := ainsert st.parent nb current }

/-- The inner neighbor loop of `Maze::bfs`, iterating the neighbor map in
its (modelled) iteration order. -/
def bfsExpand (cells : List (Position × Cell)) (current : Position)
    (st : BfsFrontier) (nbs : List (Direction × Position)) : BfsFrontier :=
  nbs.foldl (fun s dp => bfsPush cells current s dp.2) st

/-- The `while !queue.is_empty()` loop of `Maze::bfs`, with fuel.  Returns
the found target (if any) together with the parent map. -/
def bfsLoop (cells : List (Position × Cell)) (tar : Kind) :
    Nat → BfsFrontier → Option (Option Position × List (Position × Position))
  | 0, _ => none
  | fuel + 1, st =>
    match st.queue with
    | [] => some (none, st.parent)
    | current :: rest =>
      match alookup cells current with
      | none => bfsLoop cells tar fuel { st with queue := rest }
      | some cell =>
        if cell.kind = tar then some (some current, st.parent)
        else
          bfsLoop cells tar fuel
            (bfsExpand cells current { st with queue := rest } cell.neighbors)

/-- Path reconstruction of `Maze::bfs`: walk parent pointers from the
target back to the current position.  The Rust code pushes and finally
reverses; consing onto the accumulator yields the same (reversed) list.
`none` models the panic of `parent[&current]` on a missing key or
nontermination on a cyclic parent map. -/
def walkParent (startPos : Position) (parent : List (Position × Position)) :
    Nat → Position → List Position → Option (List Position)
  | 0, _, _ => none
  | fuel + 1, current, acc =>
    if current = startPos then some acc
    else
      match alookup parent current with
      | none => none
      | some next => walkParent startPos parent fuel next (current :: acc)

/-- Rust `Maze::bfs`, with fuel for the recursive fallback into
`bfs(Kind::Start)`.  The outer `none` means the call panics or does not
terminate within the fuel; `some none` is the Rust `None` return and
`some (some path)` the Rust `Some(path)` return. -/
def Maze.bfs : Nat → Maze → Kind → Option (Option (List Position))
  | 0, _, _ => none
  | fuel + 1, m, tar =>
    match bfsLoop m.cells tar (fuel + 1)
        { queue := [m.pos], visited := [m.pos], parent := [] } with
    | none => none
    | some (found, parent) =>
      let pathO : Option (List Position) :=
        match found with
        | none => some []
        | some target => walkParent m.pos parent (parent.length + 1) target []
      match pathO with
      | none => none
      | some path =>
        if path.isEmpty then
          match Maze.bfs fuel m Kind.Start with
          | none => none
          | some none => some none
          | some (some p2) => if p2.isEmpty then some none else some (some p2)
        else some (some path)

/-- The neighbor scan predicate used by `Maze::get_direction`: the cell
has a link in direction `d` and the linked cell exists with kind
`Unknown`. -/
def unknownNeighbor (m : Maze) (c : Cell) (d : Direction) : Bool :=
  match c.getNeighbor d with
  | none => false
  | some q =>
    match alookup m.cells q with
    | none => false
    | some nc => if nc.kind = Kind.Unknown then true else false

/-- The local greedy scan of `Maze::get_direction` (the four nested
if-let blocks): try right, straight, left, back relative to the current
heading and return the first direction whose linked neighbor exists and
has kind Unknown; `none` when the current cell is absent or no candidate
qualifies. -/
def scanDirection (m : Maze) : Option Direction :=
  match alookup m.cells m.pos with
  | none => none
  | some c =>
    if unknownNeighbor m c m.dir.right then some m.dir.right
    else if unknownNeighbor m c m.dir then some m.dir
    else if unknownNeighbor m c m.dir.left then some m.dir.left
    else if unknownNeighbor m c m.dir.back then some m.dir.back
    else none

/-- Rust `Maze::get_direction`; returns the heading (or Rust `None` for
"finished") together with the updated engine state; the outer `none`
models a panic or nontermination. -/
def Maze.get_direction (fuel : Nat) (m : Maze) : Option (Option Direction × Maze) :=
  match m.path with
  | coordinate :: rest =>
    match m.coordinate_to_direction coordinate with
    | none => none
    | some d => some (some d, { m with path := rest })
  | [] =>
    match scanDirection m with
    | some d => some (some d, m)
    | none =>
      match Maze.bfs fuel m Kind.Unknown with
      | none => none
      | some none => some (none, m)
      | some (some p) =>
        match p with
        | [] => none
        | coordinate :: rest =>
          match m.coordinate_to_direction coordinate with
          | none => none
          | some d => some (some d, { m with path := rest })

/-- Rust `Maze::move_one`. -/
def Maze.move_one (fuel : Nat) (m : Maze) : Option (Option Direction × Maze) :=
  match Maze.get_direction fuel m with
  | none => none
  | some (none, m1) => some (none, m1)
  | some (some d, m1) =>
    let pos2 := stepPos m1.pos d
    let cells2 := amodify m1.cells pos2
      (fun c => if c.kind = Kind.Unknown then { c with kind := Kind.Empty } else c)
    some (some d, { m1 with dir := d, pos := pos2, cells := cells2 })

/-- The coordinate bump of the normalization pass for the x axis: note it
rewrites only the `pos` field stored inside the cell, exactly as
`cell.pos.0 += 1` does. -/
def bumpX (c : Cell) : Cell :=
  { c with pos := (c.pos.1 + 1, c.pos.2) }

/-- The coordinate bump of the normalization pass for the y axis. -/
def bumpY (c : Cell) : Cell :=
  { c with pos := (c.pos.1, c.pos.2 + 1) }

/-- The `self.cells.iter_mut().for_each(...)` pass of `Maze::add_cell`:
applies the bump to every stored cell value, leaving the keys of the
map untouched (as the Rust code does). -/
def shiftCells (f : Cell → Cell) (cells : List (Position × Cell)) :
    List (Position × Cell) :=
  cells.map (fun kc => (kc.1, f kc.2))

/-- The normalization pass of `Maze::add_cell`: when the new coordinate
has a negative x (or else a negative y), bump the `pos` field of every
stored cell along that axis; otherwise leave the store alone. -/
def normCells (cellPos : Position) (cells : List (Position × Cell)) :
    List (Position × Cell) :=
  if cellPos.1 < 0 then shiftCells bumpX cells
  else if cellPos.2 < 0 then shiftCells bumpY cells
  else cells

/-- Rust `Maze::add_cell`; `none` models the `unwrap` panic on a missing
current cell. -/
def Maze.add_cell (m : Maze) (d : Direction) : Option Maze :=
  let cellPos := stepPos m.pos d
  match alookup m.cells cellPos with
  | some c =>
    if (c.getNeighbor d.back).isSome then some m
    else
      let cells1 := amodify m.cells cellPos (fun cc => cc.add_neighbor d.back m.pos)
      match alookup cells1 m.pos with
      | none => none
      | some _ =>
        some { m with cells := amodify cells1 m.pos (fun cc => cc.add_neighbor d cellPos) }
  | none =>
    let cells1 := normCells cellPos m.cells
    match alookup cells1 m.pos with
    | none => none
    | some _ =>
      let cells2 := amodify cells1 m.pos (fun cc => cc.add_neighbor d cellPos)
      let newCell := (Cell.new cellPos Kind.Unknown).add_neighbor d.back m.pos
      some { m with cells := ainsert cells2 cellPos newCell }

/-- Sets the kind of the current cell, the common shape of the tagging
operations; `none` models the `unwrap` panic. -/
def tagCurrent (m : Maze) (k : Kind) : Option Maze :=
  match alookup m.cells m.pos with
  | none => none
  | some _ => some { m with cells := amodify m.cells m.pos (fun c => { c with kind := k }) }

/-- Rust `Maze::add_checkpoint`. -/
def Maze.add_checkpoint (m : Maze) : Option Maze :=
  match tagCurrent m Kind.Checkpoint with
  | none => none
  | some m1 => some { m1 with last_checkpoint := m1.pos }

/-- Rust `Maze::add_victim`. -/
def Maze.add_victim (m : Maze) : Option Maze :=
  tagCurrent m Kind.Victim

/-- Rust `Maze::add_ramp`. -/
def Maze.add_ramp (m : Maze) : Option Maze :=
  tagCurrent m Kind.Ramp

/-- Rust `Maze::add_blue`. -/
def Maze.add_blue (m : Maze) : Option Maze :=
  tagCurrent m Kind.Blue

/-- Rust `Maze::add_black`: sets the kind of the cell at the current
position to Black, then moves the position one step backward along the
current heading (the match arms are the reversed deltas of
`move_one`). -/
def Maze.add_black (m : Maze) : Option Maze :=
  match tagCurrent m Kind.Black with
  | none => none
  | some m1 =>
    let pos2 : Position :=
      match m1.dir with
      | Direction.Up => (m1.pos.1, m1.pos.2 + 1)
      | Direction.Down => (m1.pos.1, m1.pos.2 - 1)
      | Direction.Left => (m1.pos.1 + 1, m1.pos.2)
      | Direction.Right => (m1.pos.1 - 1, m1.pos.2)
    some { m1 with pos := pos2 }

/-- Rust `Maze::lack_of_progress`. -/
def Maze.lack_of_progress (m : Maze) : Maze :=
  { m with pos := m.last_checkpoint }

/-- One public operation of the engine, as invoked by the control loop;
`move` carries the fuel bound given to the search. -/
inductive Op : Type where
  | cell (d : Direction)
  | checkpoint
  | victim
  | ramp
  | blue
  | black
  | recover
  | move (fuel : Nat)
deriving DecidableEq, Repr

/-- Applying one public operation; `none` means the call panicked or did
not terminate, so no successor state exists. -/
def applyOp : Op → Maze → Option Maze
  | Op.cell d, m => m.add_cell d
  | Op.checkpoint, m => m.add_checkpoint
  | Op.victim, m => m.add_victim
  | Op.ramp, m => m.add_ramp
  | Op.blue, m => m.add_blue
  | Op.black, m => m.add_black
  | Op.recover, m => some m.lack_of_progress
  | Op.move fuel, m => Option.map Prod.snd (Maze.move_one fuel m)

/-- Engine states reachable from `Maze::new` by any sequence of public
operations that complete normally. -/
inductive Reach : Maze → Prop where
  | init : Reach Maze.new
  | step {m m' : Maze} {o : Op} : Reach m → applyOp o m = some m' → Reach m'

/-- Reachability restricted to well-behaved use of `add_black`: the
retreat target (one step behind the current position) must already be a
cell of the store when `add_black` is called.  This is how the control
loop of the repository uses it (it calls `add_black` right after a
successful `move_one`, so the cell behind is the cell just left). -/
inductive ReachG : Maze → Prop where
  | init : ReachG Maze.new
  | step {m m' : Maze} {o : Op} : ReachG m → applyOp o m = some m' →
      (o = Op.black → (alookup m.cells (stepPos m.pos m.dir.back)).isSome) → ReachG m'

/-- Reachability restricted to sequences that never issue a tagging call
(`add_checkpoint`, `add_victim`, `add_ramp`, `add_blue`, `add_black`)
while the current position is the origin cell. -/
inductive ReachNT : Maze → Prop where
  | init : ReachNT Maze.new
  | step {m m' : Maze} {o : Op} : ReachNT m → applyOp o m = some m' →
      ((o = Op.checkpoint ∨ o = Op.victim ∨ o = Op.ramp ∨ o = Op.blue ∨ o = Op.black) →
        m.pos ≠ (0, 0)) → ReachNT m'

/-- Undirected, geometrically consistent neighbor links: every link of a
stored cell points to the orthogonally adjacent coordinate in its
direction, the linked cell exists in the store, and it links back in the
opposite direction. -/
def LinksOk (cells : List (Position × Cell)) : Prop :=
  ∀ p c d q, alookup cells p = some c → c.getNeighbor d = some q →
    q = stepPos p d ∧
    ∃ c2, alookup cells q = some c2 ∧ c2.getNeighbor d.back = some p

/-- Two engines "holding equal maps, positions, and headings" in the
sense of the spec: all scalar fields agree and the cell stores agree as
maps (same domain, and per position the same kind and the same neighbor
map), while the internal iteration order of the stores may differ. -/
def mazeEquiv (m1 m2 : Maze) : Prop :=
  m1.dir = m2.dir ∧ m1.pos = m2.pos ∧ m1.last_checkpoint = m2.last_checkpoint ∧
  m1.path = m2.path ∧
  ∀ p : Position,
    match alookup m1.cells p, alookup m2.cells p with
    | none, none => True
    | some c1, some c2 =>
        c1.kind = c2.kind ∧ ∀ d, c1.getNeighbor d = c2.getNeighbor d
    | _, _ => False

/-- The engine state produced by `add_cell(Down)` from the initial state:
Start at (0,0) linked down to a fresh Unknown cell at (0,1). -/
def mLink : Maze :=
  { dir := Direction.Up
    pos := (0, 0)
    last_checkpoint := (0, 0)
    cells :=
      [((0, 0), { pos := (0, 0), kind := Kind.Start, neighbors := [(Direction.Down, (0, 1))] }),
       ((0, 1), { pos := (0, 1), kind := Kind.Unknown, neighbors := [(Direction.Up, (0, 0))] })]
    path := [] }

/-- The engine state produced by `add_black()` from the initial state:
the origin cell is Black and the current position (0,1) names no cell. -/
def mBlackNew : Maze :=
  { dir := Direction.Up
    pos := (0, 1)
    last_checkpoint := (0, 0)
    cells := [((0, 0), { pos := (0, 0), kind := Kind.Black, neighbors := [] })]
    path := [] }

/-- The engine state produced by `add_checkpoint()` from the initial
state: the origin cell, the only cell, now has kind Checkpoint. -/
def mCheckNew : Maze :=
  { dir := Direction.Up
    pos := (0, 0)
    last_checkpoint := (0, 0)
    cells := [((0, 0), { pos := (0, 0), kind := Kind.Checkpoint, neighbors := [] })]
    path := [] }

/-- Current cell of the scan-priority test state `mScan`: linked in all
four directions. -/
def cScan : Cell :=
  { pos := (1, 1)
    kind := Kind.Empty
    neighbors :=
      [(Direction.Up, (1, 0)), (Direction.Down, (1, 2)),
       (Direction.Left, (0, 1)), (Direction.Right, (2, 1))] }

/-- A state whose current cell has Unknown neighbors in all four
directions: the scan must pick the right-hand one. -/
def mScan : Maze :=
  { dir := Direction.Up
    pos := (1, 1)
    last_checkpoint := (1, 1)
    cells :=
      [((1, 1), cScan),
       ((1, 0), { pos := (1, 0), kind := Kind.Unknown, neighbors := [(Direction.Down, (1, 1))] }),
       ((1, 2), { pos := (1, 2), kind := Kind.Unknown, neighbors := [(Direction.Up, (1, 1))] }),
       ((0, 1), { pos := (0, 1), kind := Kind.Unknown, neighbors := [(Direction.Right, (1, 1))] }),
       ((2, 1), { pos := (2, 1), kind := Kind.Unknown, neighbors := [(Direction.Left, (1, 1))] })]
    path := [] }

/-- Shared cell store of the two order-test states, except for the
neighbor list of the center cell: center (1,1) Empty, two Empty
neighbors A = (1,0) (up) and B = (0,1) (left), and two Unknown cells two
steps away, U1 = (1,-1) above A and U2 = (-1,1) left of B.  `cnbs` is
the iteration order of the center cell's neighbor map. -/
def orderCells (cnbs : List (Direction × Position)) : List (Position × Cell) :=
  [((1, 1), { pos := (1, 1), kind := Kind.Empty, neighbors := cnbs }),
   ((1, 0), { pos := (1, 0), kind := Kind.Empty,
              neighbors := [(Direction.Down, (1, 1)), (Direction.Up, (1, -1))] }),
   ((0, 1), { pos := (0, 1), kind := Kind.Empty,
              neighbors := [(Direction.Right, (1, 1)), (Direction.Left, (-1, 1))] }),
   ((1, -1), { pos := (1, -1), kind := Kind.Unknown, neighbors := [(Direction.Down, (1, 0))] }),
   ((-1, 1), { pos := (-1, 1), kind := Kind.Unknown, neighbors := [(Direction.Right, (0, 1))] })]

/-- Order-test engine whose center neighbor map iterates Up before
Left. -/
def mOrder1 : Maze :=
  { dir := Direction.Up
    pos := (1, 1)
    last_checkpoint := (1, 1)
    cells := orderCells [(Direction.Up, (1, 0)), (Direction.Left, (0, 1))]
    path := [] }

/-- Order-test engine with the same logical map as `mOrder1` but whose
center neighbor map iterates Left before Up. -/
def mOrder2 : Maze :=
  { dir := Direction.Up
    pos := (1, 1)
    last_checkpoint := (1, 1)
    cells := orderCells [(Direction.Left, (0, 1)), (Direction.Up, (1, 0))]
    path := [] }

/-! Basic laws of the association list model and of the direction algebra. -/

theorem alookup_ainsert {α β : Type} [DecidableEq α] (l : List (α × β)) (a : α) (b : β) (x : α) :
    alookup (ainsert l a b) x = if a = x then some b else alookup l x := by
  induction l with
  | nil => simp [ainsert, alookup]
  | cons kv rest ih =>
    obtain ⟨k, v⟩ := kv
    by_cases hka : k = a
    · subst hka
      by_cases hkx : k = x
      · subst hkx
        simp [ainsert, alookup]
      · simp [ainsert, alookup, hkx]
    · by_cases hkx : k = x
      · subst hkx
        have hax : ¬(a = k) := fun hh => hka hh.symm
        simp [ainsert, alookup, hka, hax]
      · simp [ainsert, alookup, hka, hkx, ih]

theorem alookup_amodify {α β : Type} [DecidableEq α] (l : List (α × β)) (a : α) (f : β → β) (x : α) :
    alookup (amodify l a f) x = if a = x then (alookup l a).map f else alookup l x := by
  induction l with
  | nil => simp [amodify, alookup]
  | cons kv rest ih =>
    obtain ⟨k, v⟩ := kv
    by_cases hka : k = a
    · subst hka
      by_cases hkx : k = x
      · subst hkx
        simp [amodify, alookup]
      · simp [amodify, alookup, hkx]
    · by_cases hkx : k = x
      · subst hkx
        have hax : ¬(a = k) := fun hh => hka hh.symm
        simp [amodify, alookup, hka, hax]
      · simp [amodify, alookup, hka, hkx, ih]

theorem alookup_map_value {α β : Type} [DecidableEq α] (f : β → β) (l : List (α × β)) (x : α) :
    alookup (l.map (fun kv => (kv.1, f kv.2))) x = (alookup l x).map f := by
  induction l with
  | nil => simp [alookup]
  | cons kv rest ih =>
    obtain ⟨k, v⟩ := kv
    by_cases hkx : k = x
    · subst hkx
      simp [alookup]
    · simp [alookup, hkx, ih]

theorem alookup_shiftCells (f : Cell → Cell) (cells : List (Position × Cell)) (x : Position) :
    alookup (shiftCells f cells) x = (alookup cells x).map f := by
  simpa [shiftCells] using alookup_map_value f cells x

theorem alookup_append_right {α β : Type} [DecidableEq α] (l l2 : List (α × β)) (a : α)
    (h : alookup l a = none) : alookup (l ++ l2) a = alookup l2 a := by
  induction l with
  | nil => simp
  | cons kv rest ih =>
    obtain ⟨k, v⟩ := kv
    by_cases hka : k = a
    · simp [alookup, hka] at h
    · simp only [List.cons_append, alookup, if_neg hka] at h ⊢
      exact ih h

theorem alookup_append_left {α β : Type} [DecidableEq α] (l l2 : List (α × β)) (a : α) (b : β)
    (h : alookup l a = some b) : alookup (l ++ l2) a = some b := by
  induction l with
  | nil => simp [alookup] at h
  | cons kv rest ih =>
    obtain ⟨k, v⟩ := kv
    by_cases hka : k = a
    · simp only [alookup, if_pos hka] at h
      simp only [List.cons_append, alookup, if_pos hka]
      exact h
    · simp only [List.cons_append, alookup, if_neg hka] at h ⊢
      exact ih h

theorem Direction.back_back (d : Direction) : d.back.back = d := by
  cases d <;> rfl

theorem stepPos_back (p : Position) (d : Direction) : stepPos (stepPos p d) d.back = p := by
  cases d <;> simp [stepPos, Direction.back]

theorem stepPos_ne (p : Position) (d : Direction) : stepPos p d ≠ p := by
  cases d <;> simp [stepPos, Prod.ext_iff]

theorem stepPos_inj (p : Position) (d1 d2 : Direction) (h : stepPos p d1 = stepPos p d2) :
    d1 = d2 := by
  cases d1 <;> cases d2 <;> simp_all [stepPos, Prod.ext_iff] <;> omega

theorem back_inj (d1 d2 : Direction) (h : Direction.back d1 = Direction.back d2) : d1 = d2 := by
  cases d1 <;> cases d2 <;> simp_all [Direction.back]

theorem Cell.add_neighbor_kind (c : Cell) (d : Direction) (q : Position) :
    (c.add_neighbor d q).kind = c.kind := by
  unfold Cell.add_neighbor
  split <;> rfl

theorem Cell.getNeighbor_add_same_none (c : Cell) (d : Direction) (q : Position)
    (h : c.getNeighbor d = none) : (c.add_neighbor d q).getNeighbor d = some q := by
  have h2 : alookup c.neighbors d = none := h
  unfold Cell.add_neighbor
  rw [h]
  simp only [Option.isSome_none, Bool.false_eq_true, if_false]
  show alookup (c.neighbors ++ [(d, q)]) d = some q
  rw [alookup_append_right _ _ _ h2]
  simp [alookup]

theorem Cell.add_neighbor_of_some (c : Cell) (d : Direction) (q : Position)
    (h : (c.getNeighbor d).isSome) : c.add_neighbor d q = c := by
  unfold Cell.add_neighbor
  rw [if_pos h]

theorem Cell.getNeighbor_add_other (c : Cell) (d d' : Direction) (q : Position)
    (h : d' ≠ d) : (c.add_neighbor d q).getNeighbor d' = c.getNeighbor d' := by
  unfold Cell.add_neighbor
  split
  · rfl
  · show alookup (c.neighbors ++ [(d, q)]) d' = alookup c.neighbors d'
    cases hc : alookup c.neighbors d' with
    | none =>
      rw [alookup_append_right _ _ _ hc]
      simp [alookup, Ne.symm h]
    | some b => exact alookup_append_left _ _ _ _ hc

theorem Maze.coordinate_to_direction_spec (m : Maze) (p : Position) (d : Direction)
    (h : m.coordinate_to_direction p = some d) : p = stepPos m.pos d := by
  unfold Maze.coordinate_to_direction at h
  split_ifs at h with h1 h2 h3 h4 <;>
    simp only [Option.some.injEq] at h <;>
    subst h <;>
    simp [stepPos, Prod.ext_iff] <;>
    omega

/-! Divergence of the breadth-first search fallback from the initial state. -/

theorem bfs_start_new : ∀ fuel, Maze.bfs fuel Maze.new Kind.Start = none
  | 0 => rfl
  | fuel + 1 => by
    rw [show Maze.bfs (fuel + 1) Maze.new Kind.Start =
        (match Maze.bfs fuel Maze.new Kind.Start with
          | none => none
          | some none => some none
          | some (some p2) => if p2.isEmpty then some none else some (some p2)) from rfl]
    rw [bfs_start_new fuel]

theorem bfs_unknown_new : ∀ fuel, Maze.bfs fuel Maze.new Kind.Unknown = none
  | 0 => rfl
  | 1 => rfl
  | fuel + 2 => by
    rw [show Maze.bfs (fuel + 2) Maze.new Kind.Unknown =
        (match Maze.bfs (fuel + 1) Maze.new Kind.Start with
          | none => none
          | some none => some none
          | some (some p2) => if p2.isEmpty then some none else some (some p2)) from rfl]
    rw [bfs_start_new (fuel + 1)]

theorem get_direction_diverges_new (fuel : Nat) :
    Maze.get_direction fuel Maze.new = none := by
  rw [show Maze.get_direction fuel Maze.new =
      (match Maze.bfs fuel Maze.new Kind.Unknown with
        | none => none
        | some none => some (none, Maze.new)
        | some (some p) =>
          match p with
          | [] => none
          | coordinate :: rest =>
            match Maze.new.coordinate_to_direction coordinate with
            | none => none
            | some d => some (some d, { Maze.new with path := rest })) from rfl]
  rw [bfs_unknown_new fuel]

/-- C1: the claim is refuted by the code as written.  In the initial state
no cell of kind Unknown exists (so none is reachable) and the Start cell
is the current position, which is exactly the premise of the claim; the
claim then asserts that `move_one()` terminates with the finished
outcome.  In the code, however, `bfs(Unknown)` produces an empty path
and falls back to `bfs(Start)`, which finds the zero-length path to the
current Start cell and recurses into `bfs(Start)` again, forever: for
every fuel bound the call is still running (`none`), so `move_one()`
never returns at all. -/
theorem move_one_new_never_finishes : ∀ fuel, Maze.move_one fuel Maze.new = none := by
  intro fuel
  unfold Maze.move_one
  rw [get_direction_diverges_new fuel]

/-- C10: `lack_of_progress()` sets the current position to the last
recorded checkpoint position and changes nothing else: heading, cell
store, last-checkpoint record and the pending planned route are all
kept, so a route computed before the reset is still the one consumed
afterwards. -/
theorem lack_of_progress_frame (m : Maze) :
    m.lack_of_progress.pos = m.last_checkpoint ∧
    m.lack_of_progress.dir = m.dir ∧
    m.lack_of_progress.cells = m.cells ∧
    m.lack_of_progress.last_checkpoint = m.last_checkpoint ∧
    m.lack_of_progress.path = m.path :=
  ⟨rfl, rfl, rfl, rfl, rfl⟩

/-- C2 counterexample: from the initial state, `add_black()` overwrites
the kind of the cell the robot is standing on, cell (0,0), to Black
(the claim says that cell keeps its kind), and the cell one step ahead
of the current position along the heading, (0,-1), does not even exist
in the store, so it is certainly not set to Black. -/
theorem add_black_marks_current_not_ahead :
    ∃ m', Maze.new.add_black = some m' ∧
      alookup m'.cells (0, 0) =
        some { pos := (0, 0), kind := Kind.Black, neighbors := [] } ∧
      alookup m'.cells (stepPos Maze.new.pos Maze.new.dir) = none :=
  ⟨_, rfl, rfl, rfl⟩

/-- C2 amended: `add_black()` sets the kind of the cell AT the current
position (not the cell ahead) to Black, regardless of its prior kind,
then moves the current position one step backward along the current
heading; every other cell keeps its kind, in particular the untouched
cell one step ahead. -/
theorem add_black_spec (m : Maze) (c : Cell)
    (h : alookup m.cells m.pos = some c) :
    ∃ m', m.add_black = some m' ∧
      alookup m'.cells m.pos = some { c with kind := Kind.Black } ∧
      m'.pos = stepPos m.pos m.dir.back ∧
      m'.dir = m.dir ∧
      m'.path = m.path ∧
      m'.last_checkpoint = m.last_checkpoint ∧
      (∀ p, p ≠ m.pos → alookup m'.cells p = alookup m.cells p) := by
  have htag : tagCurrent m Kind.Black =
      some { m with cells := amodify m.cells m.pos (fun c0 => { c0 with kind := Kind.Black }) } := by
    unfold tagCurrent
    rw [h]
  unfold Maze.add_black
  rw [htag]
  refine ⟨_, rfl, ?_, ?_, rfl, rfl, rfl, ?_⟩
  · rw [alookup_amodify, if_pos rfl, h]
    rfl
  · cases m.dir <;> simp [stepPos, Direction.back]
  · intro p hp
    rw [alookup_amodify, if_neg (fun hh => hp hh.symm)]

theorem add_black_spec_witness :
    ∃ m', Maze.new.add_black = some m' ∧
      alookup m'.cells Maze.new.pos =
        some { Cell.new (0, 0) Kind.Start with kind := Kind.Black } ∧
      m'.pos = stepPos Maze.new.pos Maze.new.dir.back ∧
      m'.dir = Maze.new.dir ∧
      m'.path = Maze.new.path ∧
      m'.last_checkpoint = Maze.new.last_checkpoint ∧
      (∀ p, p ≠ Maze.new.pos → alookup m'.cells p = alookup Maze.new.cells p) :=
  add_black_spec Maze.new (Cell.new (0, 0) Kind.Start) rfl

/-- C3: the claim is refuted by the code as written.  From the initial
state, `add_cell(Up)` targets the adjacent position (0,-1), whose y is
negative, so the normalization pass runs; but the pass only rewrites the
`pos` field stored inside each cell value and never re-keys the map, and
the new Unknown cell is then inserted under the still-negative key
(0,-1).  Afterwards the store keys are (0,0) (holding the Start cell,
whose internal `pos` field is now the desynchronized (0,1)) and the
negative key (0,-1); no cell is stored under (0,1). -/
theorem add_cell_up_keeps_negative_key :
    ∃ m', Maze.new.add_cell Direction.Up = some m' ∧
      alookup m'.cells (0, -1) =
        some { pos := (0, -1), kind := Kind.Unknown, neighbors := [(Direction.Down, (0, 0))] } ∧
      alookup m'.cells (0, 0) =
        some { pos := (0, 1), kind := Kind.Start, neighbors := [(Direction.Up, (0, -1))] } ∧
      alookup m'.cells (0, 1) = none :=
  ⟨_, rfl, rfl, rfl, rfl⟩

/-! Unfolding lemmas for `get_direction`, and the local scan. -/

theorem get_direction_nil_path (fuel : Nat) (m : Maze) (hpath : m.path = []) :
    Maze.get_direction fuel m =
      match scanDirection m with
      | some d => some (some d, m)
      | none =>
        match Maze.bfs fuel m Kind.Unknown with
        | none => none
        | some none => some (none, m)
        | some (some p) =>
          match p with
          | [] => none
          | coordinate :: rest =>
            match m.coordinate_to_direction coordinate with
            | none => none
            | some d => some (some d, { m with path := rest }) := by
  unfold Maze.get_direction
  rw [hpath]

theorem get_direction_cons_path (fuel : Nat) (m : Maze) (c0 : Position) (rest : List Position)
    (hpath : m.path = c0 :: rest) :
    Maze.get_direction fuel m =
      match m.coordinate_to_direction c0 with
      | none => none
      | some d => some (some d, { m with path := rest }) := by
  unfold Maze.get_direction
  rw [hpath]

theorem scanDirection_eq_find (m : Maze) (c : Cell) (hc : alookup m.cells m.pos = some c) :
    scanDirection m =
      List.find? (fun d0 => unknownNeighbor m c d0)
        [m.dir.right, m.dir, m.dir.left, m.dir.back] := by
  unfold scanDirection
  rw [hc]
  cases hr : unknownNeighbor m c m.dir.right <;>
    cases hs : unknownNeighbor m c m.dir <;>
      cases hl : unknownNeighbor m c m.dir.left <;>
        cases hb : unknownNeighbor m c m.dir.back <;>
          simp [List.find?, hr, hs, hl, hb]

/-- C9: when the pending route is empty and the current cell exists,
`get_direction()` returns exactly the first direction, in the fixed
priority right, straight, left, back relative to the current heading,
whose linked neighbor cell exists in the store with kind Unknown
(`unknownNeighbor`), leaving the state unchanged; so the right neighbor
wins even when the other candidates are Unknown too. -/
theorem get_direction_scan_priority (m : Maze) (c : Cell) (fuel : Nat) (d : Direction)
    (hpath : m.path = [])
    (hc : alookup m.cells m.pos = some c)
    (hfind : List.find? (fun d0 => unknownNeighbor m c d0)
        [m.dir.right, m.dir, m.dir.left, m.dir.back] = some d) :
    Maze.get_direction fuel m = some (some d, m) := by
  rw [get_direction_nil_path fuel m hpath, scanDirection_eq_find m c hc, hfind]

theorem get_direction_scan_priority_witness :
    mScan.path = [] ∧
    alookup mScan.cells mScan.pos = some cScan ∧
    List.find? (fun d0 => unknownNeighbor mScan cScan d0)
      [mScan.dir.right, mScan.dir, mScan.dir.left, mScan.dir.back] = some Direction.Right ∧
    unknownNeighbor mScan cScan mScan.dir = true ∧
    unknownNeighbor mScan cScan mScan.dir.left = true ∧
    unknownNeighbor mScan cScan mScan.dir.back = true ∧
    Maze.get_direction 1 mScan = some (some Direction.Right, mScan) :=
  ⟨rfl, rfl, rfl, rfl, rfl, rfl,
    get_direction_scan_priority mScan cScan 1 Direction.Right rfl rfl rfl⟩

/-- C8 counterexample: the breadth-first search does not enumerate the
neighbors of a dequeued cell in a fixed direction order; it iterates the
neighbor hash map in its internal order.  `mOrder1` and `mOrder2` hold
equal maps, positions, headings and pending routes in the sense of
`mazeEquiv` (the same cells, kinds and neighbor links), and differ only
in the iteration order of the center cell neighbor map; the search
visits cells in different orders and `get_direction` returns heading Up
for one engine and heading Left for the other. -/
theorem get_direction_order_dependent :
    mazeEquiv mOrder1 mOrder2 ∧
    Maze.get_direction 20 mOrder1 ≠ Maze.get_direction 20 mOrder2 := by
  constructor
  · refine ⟨rfl, rfl, rfl, rfl, ?_⟩
    intro p
    by_cases h1 : p = ((1 : Int), (1 : Int))
    · subst h1
      exact ⟨rfl, fun d => by cases d <;> rfl⟩
    · by_cases h2 : p = ((1 : Int), (0 : Int))
      · subst h2
        exact ⟨rfl, fun d => by cases d <;> rfl⟩
      · by_cases h3 : p = ((0 : Int), (1 : Int))
        · subst h3
          exact ⟨rfl, fun d => by cases d <;> rfl⟩
        · by_cases h4 : p = ((1 : Int), (-1 : Int))
          · subst h4
            exact ⟨rfl, fun d => by cases d <;> rfl⟩
          · by_cases h5 : p = ((-1 : Int), (1 : Int))
            · subst h5
              exact ⟨rfl, fun d => by cases d <;> rfl⟩
            · have e1 : alookup mOrder1.cells p = none := by
                simp only [mOrder1, orderCells, alookup,
                  if_neg (Ne.symm h1), if_neg (Ne.symm h2), if_neg (Ne.symm h3),
                  if_neg (Ne.symm h4), if_neg (Ne.symm h5)]
              have e2 : alookup mOrder2.cells p = none := by
                simp only [mOrder2, orderCells, alookup,
                  if_neg (Ne.symm h1), if_neg (Ne.symm h2), if_neg (Ne.symm h3),
                  if_neg (Ne.symm h4), if_neg (Ne.symm h5)]
              rw [e1, e2]
              trivial
  · decide

/-- C8 amended: the heading choice is deterministic only up to the
stored representation: two engines whose heading, position,
last-checkpoint, cell store (including the iteration order of every
hash map) and pending route coincide return the same result from
`get_direction`; engines whose maps are merely logically equal may
differ (see the counterexample). -/
theorem get_direction_deterministic_on_repr (m1 m2 : Maze) (fuel : Nat)
    (hdir : m1.dir = m2.dir) (hpos : m1.pos = m2.pos)
    (hlcp : m1.last_checkpoint = m2.last_checkpoint)
    (hcells : m1.cells = m2.cells) (hpath : m1.path = m2.path) :
    Maze.get_direction fuel m1 = Maze.get_direction fuel m2 := by
  cases m1
  cases m2
  cases hdir
  cases hpos
  cases hlcp
  cases hcells
  cases hpath
  rfl

theorem get_direction_deterministic_on_repr_witness :
    Maze.get_direction 1 mScan = Maze.get_direction 1 mScan :=
  get_direction_deterministic_on_repr mScan mScan 1 rfl rfl rfl rfl rfl

/-! Preservation machinery for the link-consistency invariant. -/

theorem bumpX_neighbors (c : Cell) : (bumpX c).neighbors = c.neighbors := rfl

theorem bumpY_neighbors (c : Cell) : (bumpY c).neighbors = c.neighbors := rfl

theorem bumpX_kind (c : Cell) : (bumpX c).kind = c.kind := rfl

theorem bumpY_kind (c : Cell) : (bumpY c).kind = c.kind := rfl

theorem normCells_lookup_neighbors (cp : Position) (cells : List (Position × Cell))
    (x : Position) :
    Option.map Cell.neighbors (alookup (normCells cp cells) x) =
      Option.map Cell.neighbors (alookup cells x) := by
  unfold normCells
  split_ifs
  · rw [alookup_shiftCells]
    cases alookup cells x <;> rfl
  · rw [alookup_shiftCells]
    cases alookup cells x <;> rfl
  · rfl

theorem normCells_lookup_kind (cp : Position) (cells : List (Position × Cell))
    (x : Position) :
    Option.map Cell.kind (alookup (normCells cp cells) x) =
      Option.map Cell.kind (alookup cells x) := by
  unfold normCells
  split_ifs
  · rw [alookup_shiftCells]
    cases alookup cells x <;> rfl
  · rw [alookup_shiftCells]
    cases alookup cells x <;> rfl
  · rfl

theorem normCells_lookup_isSome (cp : Position) (cells : List (Position × Cell))
    (x : Position) :
    (alookup (normCells cp cells) x).isSome = (alookup cells x).isSome := by
  unfold normCells
  split_ifs
  · rw [alookup_shiftCells]
    cases alookup cells x <;> rfl
  · rw [alookup_shiftCells]
    cases alookup cells x <;> rfl
  · rfl

theorem normCells_lookup_none (cp : Position) (cells : List (Position × Cell))
    (x : Position) (h : alookup cells x = none) :
    alookup (normCells cp cells) x = none := by
  unfold normCells
  split_ifs <;> first
    | (rw [alookup_shiftCells, h]; rfl)
    | exact h

theorem linksOk_transfer (cells1 cells2 : List (Position × Cell))
    (h : ∀ p, Option.map Cell.neighbors (alookup cells2 p) =
      Option.map Cell.neighbors (alookup cells1 p))
    (h1 : LinksOk cells1) : LinksOk cells2 := by
  intro p c d q hc hn
  have hp := h p
  rw [hc] at hp
  cases hc1 : alookup cells1 p with
  | none =>
    rw [hc1] at hp
    simp at hp
  | some c1 =>
    rw [hc1] at hp
    simp only [Option.map_some'] at hp
    have hnbeq : c.neighbors = c1.neighbors := by injection hp
    have hn1 : c1.getNeighbor d = some q := by
      unfold Cell.getNeighbor at hn ⊢
      rw [← hnbeq]
      exact hn
    obtain ⟨hgeo, c2, hc2, hback⟩ := h1 p c1 d q hc1 hn1
    refine ⟨hgeo, ?_⟩
    have hq := h q
    rw [hc2] at hq
    cases hc2' : alookup cells2 q with
    | none =>
      rw [hc2'] at hq
      simp at hq
    | some c2' =>
      rw [hc2'] at hq
      simp only [Option.map_some'] at hq
      have hnbeq2 : c2'.neighbors = c2.neighbors := by injection hq
      refine ⟨c2', rfl, ?_⟩
      unfold Cell.getNeighbor
      rw [hnbeq2]
      exact hback

theorem linksOk_amodify (cells : List (Position × Cell)) (a : Position) (f : Cell → Cell)
    (hf : ∀ c, (f c).neighbors = c.neighbors)
    (h : LinksOk cells) : LinksOk (amodify cells a f) := by
  refine linksOk_transfer cells _ (fun p => ?_) h
  rw [alookup_amodify]
  by_cases hap : a = p
  · subst hap
    rw [if_pos rfl]
    cases alookup cells a with
    | none => rfl
    | some c => simp [hf]
  · rw [if_neg hap]

theorem linksOk_normCells (cp : Position) (cells : List (Position × Cell))
    (h : LinksOk cells) : LinksOk (normCells cp cells) :=
  linksOk_transfer cells _ (fun p => normCells_lookup_neighbors cp cells p) h

theorem getNeighbor_add_of_none (c : Cell) (d : Direction) (q : Position) (d' : Direction)
    (h : c.getNeighbor d = none) :
    (c.add_neighbor d q).getNeighbor d' = if d' = d then some q else c.getNeighbor d' := by
  by_cases hdd : d' = d
  · subst hdd
    rw [if_pos rfl]
    exact Cell.getNeighbor_add_same_none c d' q h
  · rw [if_neg hdd]
    exact Cell.getNeighbor_add_other c d d' q hdd

theorem getNeighbor_new_cell (cp pos : Position) (db d' : Direction) :
    ((Cell.new cp Kind.Unknown).add_neighbor db pos).getNeighbor d' =
      if d' = db then some pos else none := by
  have h0 : (Cell.new cp Kind.Unknown).getNeighbor db = none := rfl
  rw [getNeighbor_add_of_none _ _ _ _ h0]
  by_cases hdd : d' = db
  · simp [hdd]
  · simp [hdd]
    rfl

theorem linksOk_link_existing (cells : List (Position × Cell)) (pos : Position) (d : Direction)
    (c cur : Cell)
    (hok : LinksOk cells)
    (hcp : alookup cells (stepPos pos d) = some c)
    (hnb : c.getNeighbor d.back = none)
    (hcur : alookup cells pos = some cur) :
    LinksOk (amodify (amodify cells (stepPos pos d) (fun cc => cc.add_neighbor d.back pos)) pos
      (fun cc => cc.add_neighbor d (stepPos pos d))) := by
  have hne : stepPos pos d ≠ pos := stepPos_ne pos d
  have hcurd : cur.getNeighbor d = none := by
    cases hcd : cur.getNeighbor d with
    | none => rfl
    | some q0 =>
      obtain ⟨hgeo, c2, hc2, hback⟩ := hok pos cur d q0 hcur hcd
      rw [hgeo, hcp] at hc2
      have hce : c = c2 := Option.some.inj hc2
      rw [← hce, hnb] at hback
      exact Option.noConfusion hback
  have hlook : ∀ x,
      alookup (amodify (amodify cells (stepPos pos d) (fun cc => cc.add_neighbor d.back pos)) pos
        (fun cc => cc.add_neighbor d (stepPos pos d))) x =
      if pos = x then some (cur.add_neighbor d (stepPos pos d))
      else if stepPos pos d = x then some (c.add_neighbor d.back pos)
      else alookup cells x := by
    intro x
    simp only [alookup_amodify]
    by_cases hx1 : pos = x
    · rw [if_pos hx1, if_pos hx1, if_neg hne, hcur]
      rfl
    · by_cases hx2 : stepPos pos d = x
      · rw [if_neg hx1, if_neg hx1, if_pos hx2, if_pos hx2, hcp]
        rfl
      · rw [if_neg hx1, if_neg hx1, if_neg hx2, if_neg hx2]
  have gn_cur : ∀ d0, (cur.add_neighbor d (stepPos pos d)).getNeighbor d0 =
      if d0 = d then some (stepPos pos d) else cur.getNeighbor d0 :=
    fun d0 => getNeighbor_add_of_none cur d (stepPos pos d) d0 hcurd
  have gn_c : ∀ d0, (c.add_neighbor d.back pos).getNeighbor d0 =
      if d0 = d.back then some pos else c.getNeighbor d0 :=
    fun d0 => getNeighbor_add_of_none c d.back pos d0 hnb
  intro p cp d' q' hp hq
  rw [hlook p] at hp
  by_cases hpp : pos = p
  · rw [if_pos hpp] at hp
    have hpe : cur.add_neighbor d (stepPos pos d) = cp := Option.some.inj hp
    have hq2 : (cur.add_neighbor d (stepPos pos d)).getNeighbor d' = some q' := by
      rw [hpe]
      exact hq
    rw [gn_cur d'] at hq2
    by_cases hdd : d' = d
    · rw [if_pos hdd] at hq2
      have hqe : stepPos pos d = q' := Option.some.inj hq2
      constructor
      · rw [← hqe, ← hpp, hdd]
      · refine ⟨c.add_neighbor d.back pos, ?_, ?_⟩
        · rw [← hqe, hlook (stepPos pos d),
            if_neg (fun hh => stepPos_ne pos d hh.symm), if_pos rfl]
        · rw [hdd, gn_c d.back, if_pos rfl, ← hpp]
    · rw [if_neg hdd] at hq2
      obtain ⟨hgeo, c2, hc2, hback⟩ := hok pos cur d' q' hcur hq2
      refine ⟨?_, c2, ?_, ?_⟩
      · rw [hgeo, ← hpp]
      · rw [hlook q']
        have h1 : ¬pos = q' := by
          intro hh
          exact stepPos_ne pos d' (by rw [← hgeo, ← hh])
        have h2 : ¬stepPos pos d = q' := by
          intro hh
          exact hdd (stepPos_inj pos d' d (by rw [← hgeo, ← hh]))
        rw [if_neg h1, if_neg h2]
        exact hc2
      · rw [← hpp]
        exact hback
  · rw [if_neg hpp] at hp
    by_cases hpc : stepPos pos d = p
    · rw [if_pos hpc] at hp
      have hpe : c.add_neighbor d.back pos = cp := Option.some.inj hp
      have hq2 : (c.add_neighbor d.back pos).getNeighbor d' = some q' := by
        rw [hpe]
        exact hq
      rw [gn_c d'] at hq2
      by_cases hdb : d' = d.back
      · rw [if_pos hdb] at hq2
        have hqe : pos = q' := Option.some.inj hq2
        constructor
        · rw [← hqe, ← hpc, hdb, stepPos_back]
        · refine ⟨cur.add_neighbor d (stepPos pos d), ?_, ?_⟩
          · rw [hlook q', ← hqe, if_pos rfl]
          · rw [hdb, Direction.back_back, gn_cur d, if_pos rfl, hpc]
      · rw [if_neg hdb] at hq2
        have hcpp : alookup cells p = some c := by
          rw [← hpc]
          exact hcp
        obtain ⟨hgeo, c2, hc2, hback⟩ := hok p c d' q' hcpp hq2
        refine ⟨hgeo, c2, ?_, hback⟩
        rw [hlook q']
        have h1 : ¬pos = q' := by
          intro hh
          apply hdb
          apply stepPos_inj (stepPos pos d) d' d.back
          rw [stepPos_back, hpc, ← hgeo, ← hh]
        have h2 : ¬stepPos pos d = q' := by
          intro hh
          apply stepPos_ne p d'
          rw [← hgeo, ← hh, hpc]
        rw [if_neg h1, if_neg h2]
        exact hc2
    · rw [if_neg hpc] at hp
      obtain ⟨hgeo, c2, hc2, hback⟩ := hok p cp d' q' hp hq
      refine ⟨hgeo, ?_⟩
      by_cases hqp : pos = q'
      · have hce : cur = c2 := by
          apply Option.some.inj
          rw [← hcur, hqp]
          exact hc2
        refine ⟨cur.add_neighbor d (stepPos pos d), ?_, ?_⟩
        · rw [hlook q', if_pos hqp]
        · have hback2 : cur.getNeighbor d'.back = some p := by
            rw [hce]
            exact hback
          have hdbd : ¬d'.back = d := by
            intro hh
            rw [hh, hcurd] at hback2
            exact Option.noConfusion hback2
          rw [gn_cur d'.back, if_neg hdbd]
          exact hback2
      · by_cases hqc : stepPos pos d = q'
        · have hce : c = c2 := by
            apply Option.some.inj
            rw [← hcp, hqc]
            exact hc2
          refine ⟨c.add_neighbor d.back pos, ?_, ?_⟩
          · rw [hlook q', if_neg hqp, if_pos hqc]
          · have hback2 : c.getNeighbor d'.back = some p := by
              rw [hce]
              exact hback
            have hdbd : ¬d'.back = d.back := by
              intro hh
              rw [hh, hnb] at hback2
              exact Option.noConfusion hback2
            rw [gn_c d'.back, if_neg hdbd]
            exact hback2
        · refine ⟨c2, ?_, hback⟩
          rw [hlook q', if_neg hqp, if_neg hqc]
          exact hc2

theorem linksOk_link_new (cells : List (Position × Cell)) (pos : Position) (d : Direction)
    (cur : Cell)
    (hok : LinksOk cells)
    (hcp : alookup cells (stepPos pos d) = none)
    (hcur : alookup cells pos = some cur) :
    LinksOk (ainsert (amodify cells pos (fun cc => cc.add_neighbor d (stepPos pos d)))
      (stepPos pos d) ((Cell.new (stepPos pos d) Kind.Unknown).add_neighbor d.back pos)) := by
  have hne : stepPos pos d ≠ pos := stepPos_ne pos d
  have hcurd : cur.getNeighbor d = none := by
    cases hcd : cur.getNeighbor d with
    | none => rfl
    | some q0 =>
      obtain ⟨hgeo, c2, hc2, _⟩ := hok pos cur d q0 hcur hcd
      rw [hgeo, hcp] at hc2
      exact Option.noConfusion hc2
  have hlook : ∀ x,
      alookup (ainsert (amodify cells pos (fun cc => cc.add_neighbor d (stepPos pos d)))
        (stepPos pos d) ((Cell.new (stepPos pos d) Kind.Unknown).add_neighbor d.back pos)) x =
      if stepPos pos d = x then
        some ((Cell.new (stepPos pos d) Kind.Unknown).add_neighbor d.back pos)
      else if pos = x then some (cur.add_neighbor d (stepPos pos d))
      else alookup cells x := by
    intro x
    rw [alookup_ainsert, alookup_amodify]
    by_cases hx1 : stepPos pos d = x
    · rw [if_pos hx1, if_pos hx1]
    · rw [if_neg hx1, if_neg hx1]
      by_cases hx2 : pos = x
      · rw [if_pos hx2, if_pos hx2, hcur]
        rfl
      · rw [if_neg hx2, if_neg hx2]
  have gn_cur : ∀ d0, (cur.add_neighbor d (stepPos pos d)).getNeighbor d0 =
      if d0 = d then some (stepPos pos d) else cur.getNeighbor d0 :=
    fun d0 => getNeighbor_add_of_none cur d (stepPos pos d) d0 hcurd
  have gn_new : ∀ d0,
      ((Cell.new (stepPos pos d) Kind.Unknown).add_neighbor d.back pos).getNeighbor d0 =
      if d0 = d.back then some pos else none :=
    fun d0 => getNeighbor_new_cell (stepPos pos d) pos d.back d0
  intro p cp0 d' q' hp hq
  rw [hlook p] at hp
  by_cases hpc : stepPos pos d = p
  · rw [if_pos hpc] at hp
    have hpe : (Cell.new (stepPos pos d) Kind.Unknown).add_neighbor d.back pos = cp0 :=
      Option.some.inj hp
    have hq2 : ((Cell.new (stepPos pos d) Kind.Unknown).add_neighbor d.back pos).getNeighbor d' =
        some q' := by
      rw [hpe]
      exact hq
    rw [gn_new d'] at hq2
    by_cases hdb : d' = d.back
    · rw [if_pos hdb] at hq2
      have hqe : pos = q' := Option.some.inj hq2
      constructor
      · rw [← hqe, ← hpc, hdb, stepPos_back]
      · refine ⟨cur.add_neighbor d (stepPos pos d), ?_, ?_⟩
        · rw [hlook q', ← hqe, if_neg hne, if_pos rfl]
        · rw [hdb, Direction.back_back, gn_cur d, if_pos rfl, hpc]
    · rw [if_neg hdb] at hq2
      exact Option.noConfusion hq2
  · rw [if_neg hpc] at hp
    by_cases hpp : pos = p
    · rw [if_pos hpp] at hp
      have hpe : cur.add_neighbor d (stepPos pos d) = cp0 := Option.some.inj hp
      have hq2 : (cur.add_neighbor d (stepPos pos d)).getNeighbor d' = some q' := by
        rw [hpe]
        exact hq
      rw [gn_cur d'] at hq2
      by_cases hdd : d' = d
      · rw [if_pos hdd] at hq2
        have hqe : stepPos pos d = q' := Option.some.inj hq2
        constructor
        · rw [← hqe, ← hpp, hdd]
        · refine ⟨(Cell.new (stepPos pos d) Kind.Unknown).add_neighbor d.back pos, ?_, ?_⟩
          · rw [hlook q', ← hqe, if_pos rfl]
          · rw [gn_new d'.back, hdd, if_pos rfl, ← hpp]
      · rw [if_neg hdd] at hq2
        obtain ⟨hgeo, c2, hc2, hback⟩ := hok pos cur d' q' hcur hq2
        refine ⟨?_, c2, ?_, ?_⟩
        · rw [hgeo, ← hpp]
        · rw [hlook q']
          have h2 : ¬stepPos pos d = q' := by
            intro hh
            exact hdd (stepPos_inj pos d' d (by rw [← hgeo, ← hh]))
          have h1 : ¬pos = q' := by
            intro hh
            exact stepPos_ne pos d' (by rw [← hgeo, ← hh])
          rw [if_neg h2, if_neg h1]
          exact hc2
        · rw [← hpp]
          exact hback
    · rw [if_neg hpp] at hp
      obtain ⟨hgeo, c2, hc2, hback⟩ := hok p cp0 d' q' hp hq
      refine ⟨hgeo, ?_⟩
      have hqcp : ¬stepPos pos d = q' := by
        intro hh
        rw [← hh, hcp] at hc2
        exact Option.noConfusion hc2
      by_cases hqp : pos = q'
      · have hce : cur = c2 := Option.some.inj (by rw [← hcur, hqp]; exact hc2)
        refine ⟨cur.add_neighbor d (stepPos pos d), ?_, ?_⟩
        · rw [hlook q', if_neg hqcp, if_pos hqp]
        · have hback2 : cur.getNeighbor d'.back = some p := by
            rw [hce]
            exact hback
          have hdbd : ¬d'.back = d := by
            intro hh
            rw [hh, hcurd] at hback2
            exact Option.noConfusion hback2
          rw [gn_cur d'.back, if_neg hdbd]
          exact hback2
      · refine ⟨c2, ?_, hback⟩
        rw [hlook q', if_neg hqcp, if_neg hqp]
        exact hc2

/-! Shape lemmas for the public operations, and the link invariant over
all reachable states. -/

theorem tagCurrent_eq (m : Maze) (k : Kind) (m' : Maze) (h : tagCurrent m k = some m') :
    (alookup m.cells m.pos).isSome ∧
    m' = { m with cells := amodify m.cells m.pos (fun c => { c with kind := k }) } := by
  unfold tagCurrent at h
  split at h
  next => exact Option.noConfusion h
  next c hc =>
    refine ⟨?_, (Option.some.inj h).symm⟩
    rw [hc]
    rfl

theorem add_checkpoint_eq (m m' : Maze) (h : m.add_checkpoint = some m') :
    ∃ mt, tagCurrent m Kind.Checkpoint = some mt ∧
      m' = { mt with last_checkpoint := mt.pos } := by
  unfold Maze.add_checkpoint at h
  split at h
  next => exact Option.noConfusion h
  next mt hmt => exact ⟨mt, hmt, (Option.some.inj h).symm⟩

theorem add_black_eq (m m' : Maze) (h : m.add_black = some m') :
    ∃ mt, tagCurrent m Kind.Black = some mt ∧ m'.cells = mt.cells ∧
      m'.dir = mt.dir ∧ m'.last_checkpoint = mt.last_checkpoint ∧ m'.path = mt.path := by
  unfold Maze.add_black at h
  split at h
  next => exact Option.noConfusion h
  next mt hmt =>
    refine ⟨mt, hmt, ?_⟩
    rw [← Option.some.inj h]
    exact ⟨rfl, rfl, rfl, rfl⟩

theorem tag_linksOk (m : Maze) (k : Kind) (m' : Maze)
    (hok : LinksOk m.cells) (h : tagCurrent m k = some m') : LinksOk m'.cells := by
  obtain ⟨-, hm⟩ := tagCurrent_eq m k m' h
  rw [hm]
  exact linksOk_amodify _ _ _ (fun c => rfl) hok

theorem add_cell_linksOk (m : Maze) (d : Direction) (m' : Maze)
    (hok : LinksOk m.cells) (h : m.add_cell d = some m') : LinksOk m'.cells := by
  simp only [Maze.add_cell] at h
  split at h
  next c hcp =>
    split at h
    next hguard =>
      rw [← Option.some.inj h]
      exact hok
    next hguard =>
      split at h
      next hcur => exact Option.noConfusion h
      next cur hcur =>
        rw [← Option.some.inj h]
        have hnb : c.getNeighbor d.back = none := by
          cases hgn : c.getNeighbor d.back with
          | none => rfl
          | some _ => exact absurd (by rw [hgn]; rfl) hguard
        have hcur0 : alookup m.cells m.pos = some cur := by
          rw [alookup_amodify, if_neg (stepPos_ne m.pos d)] at hcur
          exact hcur
        exact linksOk_link_existing m.cells m.pos d c cur hok hcp hnb hcur0
  next hcp =>
    split at h
    next hcur => exact Option.noConfusion h
    next cur hcur =>
      rw [← Option.some.inj h]
      exact linksOk_link_new (normCells (stepPos m.pos d) m.cells) m.pos d cur
        (linksOk_normCells _ _ hok)
        (normCells_lookup_none _ _ _ hcp)
        hcur

theorem get_direction_frame (fuel : Nat) (m : Maze) (r : Option Direction) (m1 : Maze)
    (h : Maze.get_direction fuel m = some (r, m1)) :
    m1.cells = m.cells ∧ m1.dir = m.dir ∧ m1.pos = m.pos ∧
    m1.last_checkpoint = m.last_checkpoint := by
  unfold Maze.get_direction at h
  split at h
  next c0 rest hpath =>
    split at h
    next => exact Option.noConfusion h
    next d hcd =>
      injection Option.some.inj h with h1 h2
      rw [← h2]
      exact ⟨rfl, rfl, rfl, rfl⟩
  next hpath =>
    split at h
    next d hsc =>
      injection Option.some.inj h with h1 h2
      rw [← h2]
      exact ⟨rfl, rfl, rfl, rfl⟩
    next hsc =>
      split at h
      next => exact Option.noConfusion h
      next hbfs =>
        injection Option.some.inj h with h1 h2
        rw [← h2]
        exact ⟨rfl, rfl, rfl, rfl⟩
      next p hbfs =>
        split at h
        next => exact Option.noConfusion h
        next c0 rest =>
          split at h
          next => exact Option.noConfusion h
          next d hcd =>
            injection Option.some.inj h with h1 h2
            rw [← h2]
            exact ⟨rfl, rfl, rfl, rfl⟩

theorem move_one_linksOk (fuel : Nat) (m : Maze) (r : Option Direction) (m2 : Maze)
    (hok : LinksOk m.cells) (h : Maze.move_one fuel m = some (r, m2)) : LinksOk m2.cells := by
  simp only [Maze.move_one] at h
  split at h
  next => exact Option.noConfusion h
  next m1 hgd =>
    injection Option.some.inj h with h1 h2
    rw [← h2]
    rw [(get_direction_frame fuel m none m1 hgd).1]
    exact hok
  next d m1 hgd =>
    injection Option.some.inj h with h1 h2
    rw [← h2]
    have hframe := get_direction_frame fuel m (some d) m1 hgd
    show LinksOk (amodify m1.cells (stepPos m1.pos d)
      (fun c => if c.kind = Kind.Unknown then { c with kind := Kind.Empty } else c))
    rw [hframe.1]
    refine linksOk_amodify _ _ _ (fun c => ?_) hok
    by_cases hk : c.kind = Kind.Unknown
    · rw [if_pos hk]
    · rw [if_neg hk]

theorem linksOk_maze_new : LinksOk Maze.new.cells := by
  intro p c d q hp hq
  have he : alookup Maze.new.cells p =
      if ((0, 0) : Position) = p then some (Cell.new (0, 0) Kind.Start) else none := rfl
  rw [he] at hp
  by_cases h0 : ((0, 0) : Position) = p
  · rw [if_pos h0] at hp
    have hce : Cell.new (0, 0) Kind.Start = c := Option.some.inj hp
    rw [← hce] at hq
    exact Option.noConfusion hq
  · rw [if_neg h0] at hp
    exact Option.noConfusion hp

theorem reach_linksOk (m : Maze) (h : Reach m) : LinksOk m.cells := by
  induction h with
  | init => exact linksOk_maze_new
  | @step m0 m1 o hr hs ih =>
    cases o with
    | cell d => exact add_cell_linksOk m0 d m1 ih hs
    | checkpoint =>
      obtain ⟨mt, hmt, hm1⟩ := add_checkpoint_eq m0 m1 hs
      rw [hm1]
      exact tag_linksOk m0 Kind.Checkpoint mt ih hmt
    | victim => exact tag_linksOk m0 Kind.Victim m1 ih hs
    | ramp => exact tag_linksOk m0 Kind.Ramp m1 ih hs
    | blue => exact tag_linksOk m0 Kind.Blue m1 ih hs
    | black =>
      obtain ⟨mt, hmt, hcells, -⟩ := add_black_eq m0 m1 hs
      rw [hcells]
      exact tag_linksOk m0 Kind.Black mt ih hmt
    | recover =>
      have hm1 : m1 = m0.lack_of_progress := (Option.some.inj hs).symm
      rw [hm1]
      exact ih
    | move fuel =>
      simp only [applyOp] at hs
      cases hmv : Maze.move_one fuel m0 with
      | none =>
        rw [hmv] at hs
        exact Option.noConfusion hs
      | some rm =>
        rw [hmv] at hs
        obtain ⟨r1, m2⟩ := rm
        have hm1 : m1 = m2 := (Option.some.inj hs).symm
        rw [hm1]
        exact move_one_linksOk fuel m0 r1 m2 ih hmv

/-- C6: undirected link consistency is an invariant of every reachable
state: whenever a stored cell at position p has a neighbor link to q in
direction d, the cell at q exists and links back to p in direction
d.back (and, additionally, q is exactly the adjacent coordinate of p in
direction d).  Every `add_cell` call that creates a link creates both
sides, and no operation removes a link. -/
theorem reach_links_symmetric (m : Maze) (hm : Reach m) (p : Position) (c : Cell)
    (d : Direction) (q : Position)
    (hc : alookup m.cells p = some c) (hn : c.getNeighbor d = some q) :
    ∃ c2, alookup m.cells q = some c2 ∧ c2.getNeighbor d.back = some p := by
  obtain ⟨-, c2, hc2, hb⟩ := reach_linksOk m hm p c d q hc hn
  exact ⟨c2, hc2, hb⟩

theorem reach_links_symmetric_witness :
    Reach mLink ∧
    ∃ c2, alookup mLink.cells (0, 1) = some c2 ∧
      c2.getNeighbor Direction.Down.back = some (0, 0) := by
  have hr : Reach mLink :=
    @Reach.step Maze.new mLink (Op.cell Direction.Down) Reach.init rfl
  exact ⟨hr, reach_links_symmetric mLink hr (0, 0)
    { pos := (0, 0), kind := Kind.Start, neighbors := [(Direction.Down, (0, 1))] }
    Direction.Down (0, 1) rfl rfl⟩

/-! The parent map built by the search only ever holds keys that name
existing, non-Black cells; every returned path consists of such keys. -/

theorem bfsPush_parent (cells : List (Position × Cell)) (current : Position)
    (st : BfsFrontier) (nb : Position)
    (hp : ∀ k, (alookup st.parent k).isSome →
      ∃ c, alookup cells k = some c ∧ c.kind ≠ Kind.Black) :
    ∀ k, (alookup (bfsPush cells current st nb).parent k).isSome →
      ∃ c, alookup cells k = some c ∧ c.kind ≠ Kind.Black := by
  intro k hk
  unfold bfsPush at hk
  split at hk
  · exact hp k hk
  · split at hk
    next => exact hp k hk
    next nc hnc =>
      split at hk
      · exact hp k hk
      next hkind =>
        have hk2 : (alookup (ainsert st.parent nb current) k).isSome = true := hk
        rw [alookup_ainsert] at hk2
        by_cases hnb : nb = k
        · rw [← hnb]
          exact ⟨nc, hnc, hkind⟩
        · rw [if_neg hnb] at hk2
          exact hp k hk2

theorem bfsExpand_parent (cells : List (Position × Cell)) (current : Position)
    (nbs : List (Direction × Position)) :
    ∀ (st : BfsFrontier),
    (∀ k, (alookup st.parent k).isSome →
      ∃ c, alookup cells k = some c ∧ c.kind ≠ Kind.Black) →
    ∀ k, (alookup (bfsExpand cells current st nbs).parent k).isSome →
      ∃ c, alookup cells k = some c ∧ c.kind ≠ Kind.Black := by
  induction nbs with
  | nil => exact fun st hp => hp
  | cons dp rest ih =>
    intro st hp
    exact ih (bfsPush cells current st dp.2) (bfsPush_parent cells current st dp.2 hp)

theorem bfsLoop_parent (cells : List (Position × Cell)) (tar : Kind) :
    ∀ (fuel : Nat) (st : BfsFrontier) (res : Option Position × List (Position × Position)),
    (∀ k, (alookup st.parent k).isSome →
      ∃ c, alookup cells k = some c ∧ c.kind ≠ Kind.Black) →
    bfsLoop cells tar fuel st = some res →
    ∀ k, (alookup res.2 k).isSome →
      ∃ c, alookup cells k = some c ∧ c.kind ≠ Kind.Black := by
  intro fuel
  induction fuel with
  | zero => exact fun st res hp h => Option.noConfusion h
  | succ n ih =>
    intro st res hp h
    unfold bfsLoop at h
    split at h
    · rw [← Option.some.inj h]
      exact hp
    next current rest hqueue =>
      split at h
      next => exact ih { st with queue := rest } res hp h
      next cell hcell =>
        split at h
        · rw [← Option.some.inj h]
          exact hp
        · exact ih (bfsExpand cells current { st with queue := rest } cell.neighbors) res
            (bfsExpand_parent cells current cell.neighbors { st with queue := rest } hp) h

theorem walkParent_mem (startPos : Position) (parent : List (Position × Position)) :
    ∀ (fuel : Nat) (current : Position) (acc path : List Position),
    walkParent startPos parent fuel current acc = some path →
    ∀ q ∈ path, q ∈ acc ∨ (alookup parent q).isSome := by
  intro fuel
  induction fuel with
  | zero => exact fun current acc path h => Option.noConfusion h
  | succ n ih =>
    intro current acc path h
    unfold walkParent at h
    split at h
    · intro q hq
      left
      have hae : acc = path := Option.some.inj h
      rw [← hae] at hq
      exact hq
    · split at h
      next => exact Option.noConfusion h
      next next0 hnext =>
        intro q hq
        cases ih next0 (current :: acc) path h q hq with
        | inl hacc =>
          cases hacc with
          | head =>
            right
            rw [hnext]
            rfl
          | tail _ htl =>
            left
            exact htl
        | inr hpar =>
          right
          exact hpar

theorem bfs_path_mem (fuel : Nat) : ∀ (m : Maze) (tar : Kind) (p : List Position),
    Maze.bfs fuel m tar = some (some p) →
    ∀ q ∈ p, ∃ c, alookup m.cells q = some c ∧ c.kind ≠ Kind.Black := by
  induction fuel with
  | zero => exact fun m tar p h => Option.noConfusion h
  | succ n ih =>
    intro m tar p h
    simp only [Maze.bfs] at h
    split at h
    next => exact Option.noConfusion h
    next found parent hloop =>
      split at h
      next => exact Option.noConfusion h
      next path hpath =>
        split at h
        · split at h
          next => exact Option.noConfusion h
          next => exact Option.noConfusion (Option.some.inj h)
          next p2 hbfs =>
            split at h
            next => exact Option.noConfusion (Option.some.inj h)
            next =>
              have hpe : p2 = p := Option.some.inj (Option.some.inj h)
              rw [← hpe]
              exact ih m Kind.Start p2 hbfs
        next hnotempty =>
          have hpe : path = p := Option.some.inj (Option.some.inj h)
          have hparent : ∀ k, (alookup parent k).isSome →
              ∃ c, alookup m.cells k = some c ∧ c.kind ≠ Kind.Black := by
            refine bfsLoop_parent m.cells tar (n + 1)
              { queue := [m.pos], visited := [m.pos], parent := [] } (found, parent)
              (fun k hk => ?_) hloop
            exact Bool.noConfusion hk
          cases found with
          | none =>
            have : ([] : List Position) = path := Option.some.inj hpath
            rw [← this] at hnotempty
            exact absurd rfl hnotempty
          | some target =>
            intro q hq
            rw [← hpe] at hq
            cases walkParent_mem m.pos parent (parent.length + 1) target [] path hpath q hq with
            | inl hin => exact absurd hin (List.not_mem_nil q)
            | inr hpar => exact hparent q hpar

/-- C7: any path the breadth-first search returns (for any target kind,
in particular Unknown or Start, and also through the recursive fallback)
names only positions whose cells exist and are not Black: Black cells
are excluded from traversal, so no position of the returned sequence
(and hence of the pending route stored from it) has kind Black. -/
theorem bfs_path_no_black (fuel : Nat) (m : Maze) (tar : Kind) (p : List Position)
    (h : Maze.bfs fuel m tar = some (some p)) (q : Position) (hq : q ∈ p) :
    ∃ c, alookup m.cells q = some c ∧ c.kind ≠ Kind.Black :=
  bfs_path_mem fuel m tar p h q hq

theorem bfs_path_no_black_witness :
    Maze.bfs 5 mLink Kind.Unknown = some (some [(0, 1)]) ∧
    ((0, 1) : Position) ∈ [((0, 1) : Position)] ∧
    ∃ c, alookup mLink.cells (0, 1) = some c ∧ c.kind ≠ Kind.Black :=
  ⟨rfl, by decide, bfs_path_no_black 5 mLink Kind.Unknown [(0, 1)] rfl (0, 1) (by decide)⟩

/-! Existence of looked-up keys is preserved by every store update. -/

theorem amodify_isSome {α β : Type} [DecidableEq α] (l : List (α × β)) (a : α) (f : β → β)
    (x : α) (hx : (alookup l x).isSome) : (alookup (amodify l a f) x).isSome := by
  rw [alookup_amodify]
  by_cases hax : a = x
  · rw [if_pos hax, hax]
    cases hl : alookup l x with
    | none =>
      rw [hl] at hx
      exact Bool.noConfusion hx
    | some b => rfl
  · rw [if_neg hax]
    exact hx

theorem ainsert_isSome {α β : Type} [DecidableEq α] (l : List (α × β)) (a : α) (b : β)
    (x : α) (hx : (alookup l x).isSome) : (alookup (ainsert l a b) x).isSome := by
  rw [alookup_ainsert]
  by_cases hax : a = x
  · rw [if_pos hax]
    rfl
  · rw [if_neg hax]
    exact hx

theorem normCells_isSome (cp : Position) (cells : List (Position × Cell)) (x : Position)
    (hx : (alookup cells x).isSome) : (alookup (normCells cp cells) x).isSome := by
  rw [normCells_lookup_isSome]
  exact hx

theorem add_cell_frame (m : Maze) (d : Direction) (m' : Maze) (h : m.add_cell d = some m') :
    m'.dir = m.dir ∧ m'.pos = m.pos ∧ m'.last_checkpoint = m.last_checkpoint ∧
    m'.path = m.path ∧
    ∀ x, (alookup m.cells x).isSome → (alookup m'.cells x).isSome := by
  simp only [Maze.add_cell] at h
  split at h
  next c hcp =>
    split at h
    next =>
      rw [← Option.some.inj h]
      exact ⟨rfl, rfl, rfl, rfl, fun x hx => hx⟩
    next hguard =>
      split at h
      next => exact Option.noConfusion h
      next cur hcur =>
        rw [← Option.some.inj h]
        exact ⟨rfl, rfl, rfl, rfl,
          fun x hx => amodify_isSome _ _ _ _ (amodify_isSome _ _ _ _ hx)⟩
  next hcp =>
    split at h
    next => exact Option.noConfusion h
    next cur hcur =>
      rw [← Option.some.inj h]
      exact ⟨rfl, rfl, rfl, rfl,
        fun x hx => ainsert_isSome _ _ _ _ (amodify_isSome _ _ _ _ (normCells_isSome _ _ _ hx))⟩

theorem add_black_shape (m m' : Maze) (h : m.add_black = some m') :
    m'.cells = amodify m.cells m.pos (fun c0 => { c0 with kind := Kind.Black }) ∧
    m'.pos = stepPos m.pos m.dir.back ∧
    m'.dir = m.dir ∧ m'.path = m.path ∧ m'.last_checkpoint = m.last_checkpoint := by
  unfold Maze.add_black at h
  split at h
  next => exact Option.noConfusion h
  next mt hmt =>
    obtain ⟨-, hmtm⟩ := tagCurrent_eq m Kind.Black mt hmt
    subst hmtm
    rw [← Option.some.inj h]
    refine ⟨rfl, ?_, rfl, rfl, rfl⟩
    cases m.dir <;> rfl

theorem get_direction_none_eq (fuel : Nat) (m : Maze) (m1 : Maze)
    (h : Maze.get_direction fuel m = some (none, m1)) : m1 = m := by
  unfold Maze.get_direction at h
  split at h
  next c0 rest hpath =>
    split at h
    next => exact Option.noConfusion h
    next d hcd =>
      injection Option.some.inj h with h1 h2
      exact Option.noConfusion h1
  next hpath =>
    split at h
    next d hsc =>
      injection Option.some.inj h with h1 h2
      exact Option.noConfusion h1
    next hsc =>
      split at h
      next => exact Option.noConfusion h
      next hbfs =>
        injection Option.some.inj h with h1 h2
        exact h2.symm
      next p hbfs =>
        split at h
        next => exact Option.noConfusion h
        next c0 rest =>
          split at h
          next => exact Option.noConfusion h
          next d hcd =>
            injection Option.some.inj h with h1 h2
            exact Option.noConfusion h1

theorem unknownNeighbor_lookup (m : Maze) (c : Cell) (d : Direction)
    (h : unknownNeighbor m c d = true) :
    ∃ q nc, c.getNeighbor d = some q ∧ alookup m.cells q = some nc ∧
      nc.kind = Kind.Unknown := by
  unfold unknownNeighbor at h
  split at h
  next => exact Bool.noConfusion h
  next q hq =>
    split at h
    next => exact Bool.noConfusion h
    next nc hnc =>
      split at h
      next hk => exact ⟨q, nc, hq, hnc, hk⟩
      next => exact Bool.noConfusion h

theorem get_direction_cases (fuel : Nat) (m : Maze) (d : Direction) (m1 : Maze)
    (h : Maze.get_direction fuel m = some (some d, m1)) :
    m1.cells = m.cells ∧ m1.dir = m.dir ∧ m1.pos = m.pos ∧
    m1.last_checkpoint = m.last_checkpoint ∧
    ((m.path = stepPos m.pos d :: m1.path) ∨
     (m1.path = m.path ∧ ∃ c, alookup m.cells m.pos = some c ∧ unknownNeighbor m c d = true) ∨
     (Maze.bfs fuel m Kind.Unknown = some (some (stepPos m.pos d :: m1.path)))) := by
  unfold Maze.get_direction at h
  split at h
  next c0 rest hpath =>
    split at h
    next => exact Option.noConfusion h
    next d0 hcd =>
      injection Option.some.inj h with h1 h2
      have hd0 : d0 = d := Option.some.inj h1
      have hc : m1.cells = m.cells := by rw [← h2]
      have hdd : m1.dir = m.dir := by rw [← h2]
      have hpp : m1.pos = m.pos := by rw [← h2]
      have hll : m1.last_checkpoint = m.last_checkpoint := by rw [← h2]
      have hpa : m1.path = rest := by rw [← h2]
      refine ⟨hc, hdd, hpp, hll, Or.inl ?_⟩
      rw [hpath, hpa]
      have hco := Maze.coordinate_to_direction_spec m c0 d0 hcd
      rw [← hd0, ← hco]
  next hpath =>
    split at h
    next d0 hsc =>
      injection Option.some.inj h with h1 h2
      have hd0 : d0 = d := Option.some.inj h1
      have hc : m1.cells = m.cells := by rw [← h2]
      have hdd : m1.dir = m.dir := by rw [← h2]
      have hpp : m1.pos = m.pos := by rw [← h2]
      have hll : m1.last_checkpoint = m.last_checkpoint := by rw [← h2]
      have hpa : m1.path = m.path := by rw [← h2]
      refine ⟨hc, hdd, hpp, hll, Or.inr (Or.inl ⟨hpa, ?_⟩)⟩
      unfold scanDirection at hsc
      split at hsc
      next => exact Option.noConfusion hsc
      next c hcc =>
        refine ⟨c, hcc, ?_⟩
        split_ifs at hsc with hs1 hs2 hs3 hs4
        · rw [← hd0, ← Option.some.inj hsc]
          exact hs1
        · rw [← hd0, ← Option.some.inj hsc]
          exact hs2
        · rw [← hd0, ← Option.some.inj hsc]
          exact hs3
        · rw [← hd0, ← Option.some.inj hsc]
          exact hs4
    next hsc =>
      split at h
      next => exact Option.noConfusion h
      next hbfs =>
        injection Option.some.inj h with h1 h2
        exact Option.noConfusion h1
      next p hbfs =>
        split at h
        next => exact Option.noConfusion h
        next c0 rest =>
          split at h
          next => exact Option.noConfusion h
          next d0 hcd =>
            injection Option.some.inj h with h1 h2
            have hd0 : d0 = d := Option.some.inj h1
            have hc : m1.cells = m.cells := by rw [← h2]
            have hdd : m1.dir = m.dir := by rw [← h2]
            have hpp : m1.pos = m.pos := by rw [← h2]
            have hll : m1.last_checkpoint = m.last_checkpoint := by rw [← h2]
            have hpa : m1.path = rest := by rw [← h2]
            refine ⟨hc, hdd, hpp, hll, Or.inr (Or.inr ?_)⟩
            rw [hpa]
            have hco := Maze.coordinate_to_direction_spec m c0 d0 hcd
            rw [← hd0, ← hco]
            exact hbfs

theorem reachG_reach (m : Maze) (h : ReachG m) : Reach m := by
  induction h with
  | init => exact Reach.init
  | step hr hs hb ih => exact Reach.step ih hs

theorem reachG_inv (m : Maze) (h : ReachG m) :
    (alookup m.cells m.pos).isSome ∧
    (alookup m.cells m.last_checkpoint).isSome ∧
    ∀ q ∈ m.path, (alookup m.cells q).isSome := by
  induction h with
  | init => exact ⟨rfl, rfl, fun q hq => absurd hq (List.not_mem_nil q)⟩
  | @step m0 m1 o hr hs hb ih =>
    obtain ⟨hpos, hcp, hpath⟩ := ih
    cases o with
    | cell d =>
      obtain ⟨hdir, hp, hl, hpa, htr⟩ := add_cell_frame m0 d m1 hs
      refine ⟨?_, ?_, ?_⟩
      · rw [hp]
        exact htr _ hpos
      · rw [hl]
        exact htr _ hcp
      · intro q hq
        rw [hpa] at hq
        exact htr _ (hpath q hq)
    | checkpoint =>
      obtain ⟨mt, hmt, hm1⟩ := add_checkpoint_eq m0 m1 hs
      obtain ⟨-, hmtm⟩ := tagCurrent_eq m0 Kind.Checkpoint mt hmt
      subst hmtm
      subst hm1
      exact ⟨amodify_isSome _ _ _ _ hpos, amodify_isSome _ _ _ _ hpos,
        fun q hq => amodify_isSome _ _ _ _ (hpath q hq)⟩
    | victim =>
      obtain ⟨-, hm1⟩ := tagCurrent_eq m0 Kind.Victim m1 hs
      subst hm1
      exact ⟨amodify_isSome _ _ _ _ hpos, amodify_isSome _ _ _ _ hcp,
        fun q hq => amodify_isSome _ _ _ _ (hpath q hq)⟩
    | ramp =>
      obtain ⟨-, hm1⟩ := tagCurrent_eq m0 Kind.Ramp m1 hs
      subst hm1
      exact ⟨amodify_isSome _ _ _ _ hpos, amodify_isSome _ _ _ _ hcp,
        fun q hq => amodify_isSome _ _ _ _ (hpath q hq)⟩
    | blue =>
      obtain ⟨-, hm1⟩ := tagCurrent_eq m0 Kind.Blue m1 hs
      subst hm1
      exact ⟨amodify_isSome _ _ _ _ hpos, amodify_isSome _ _ _ _ hcp,
        fun q hq => amodify_isSome _ _ _ _ (hpath q hq)⟩
    | black =>
      obtain ⟨hcells, hp, hdir, hpa, hl⟩ := add_black_shape m0 m1 hs
      have hbb := hb rfl
      refine ⟨?_, ?_, ?_⟩
      · rw [hcells, hp]
        exact amodify_isSome _ _ _ _ hbb
      · rw [hcells, hl]
        exact amodify_isSome _ _ _ _ hcp
      · intro q hq
        rw [hpa] at hq
        rw [hcells]
        exact amodify_isSome _ _ _ _ (hpath q hq)
    | recover =>
      have hm1 : m1 = m0.lack_of_progress := (Option.some.inj hs).symm
      subst hm1
      exact ⟨hcp, hcp, fun q hq => hpath q hq⟩
    | move fuel =>
      simp only [applyOp] at hs
      cases hmv : Maze.move_one fuel m0 with
      | none =>
        rw [hmv] at hs
        exact Option.noConfusion hs
      | some rm =>
        rw [hmv] at hs
        obtain ⟨r1, m2⟩ := rm
        have hm12 : m2 = m1 := Option.some.inj hs
        subst hm12
        simp only [Maze.move_one] at hmv
        split at hmv
        next => exact Option.noConfusion hmv
        next mg hgd =>
          injection Option.some.inj hmv with h1 h2
          subst h2
          have hgm := get_direction_none_eq fuel m0 mg hgd
          subst hgm
          exact ⟨hpos, hcp, hpath⟩
        next d mg hgd =>
          injection Option.some.inj hmv with h1 h2
          obtain ⟨hcells, hdir, hpp, hll, hdisj⟩ := get_direction_cases fuel m0 d mg hgd
          have hstep : (alookup m0.cells (stepPos m0.pos d)).isSome := by
            cases hdisj with
            | inl hpend =>
              refine hpath _ ?_
              rw [hpend]
              exact List.mem_cons_self _ _
            | inr hrest =>
              cases hrest with
              | inl hscan =>
                obtain ⟨hpaeq, c, hcc, hun⟩ := hscan
                obtain ⟨q, nc, hq, hnc, -⟩ := unknownNeighbor_lookup m0 c d hun
                obtain ⟨hgeo, -⟩ :=
                  reach_linksOk m0 (reachG_reach m0 hr) m0.pos c d q hcc hq
                rw [hgeo] at hnc
                rw [hnc]
                rfl
              | inr hbfs =>
                obtain ⟨c, hc, -⟩ := bfs_path_mem fuel m0 Kind.Unknown _ hbfs
                  (stepPos m0.pos d) (List.mem_cons_self _ _)
                rw [hc]
                rfl
          have hmgpath : ∀ q ∈ mg.path, (alookup m0.cells q).isSome := by
            intro q hq
            cases hdisj with
            | inl hpend =>
              refine hpath q ?_
              rw [hpend]
              exact List.mem_cons_of_mem _ hq
            | inr hrest =>
              cases hrest with
              | inl hscan =>
                refine hpath q ?_
                rw [← hscan.1]
                exact hq
              | inr hbfs =>
                obtain ⟨c, hc, -⟩ := bfs_path_mem fuel m0 Kind.Unknown _ hbfs q
                  (List.mem_cons_of_mem _ hq)
                rw [hc]
                rfl
          rw [← h2]
          have hstep2 : (alookup mg.cells (stepPos mg.pos d)).isSome := by
            rw [hcells, hpp]
            exact hstep
          have hcp2 : (alookup mg.cells mg.last_checkpoint).isSome := by
            rw [hcells, hll]
            exact hcp
          refine ⟨amodify_isSome _ _ _ _ hstep2, amodify_isSome _ _ _ _ hcp2, ?_⟩
          intro q hq
          have hq2 : (alookup mg.cells q).isSome := by
            rw [hcells]
            exact hmgpath q hq
          exact amodify_isSome _ _ _ _ hq2

/-- C4 counterexample: the state `mBlackNew` is reachable by the single
public operation `add_black()` from the initial state, yet its current
position (0,1) is not a key of the cell store: `add_black` retreats the
logical position one step backward without checking that a cell exists
there. -/
theorem reach_pos_missing :
    Reach mBlackNew ∧ alookup mBlackNew.cells mBlackNew.pos = none :=
  ⟨@Reach.step Maze.new mBlackNew Op.black Reach.init rfl, rfl⟩

/-- C4 amended: in every state reachable from the initial engine state
by public operations in which each `add_black` call is made while the
retreat target (the cell one step behind the current position) exists
in the store, the current position refers to an existing cell.  The
unrestricted claim fails, because `add_black` moves the position to a
cell that need not exist (see the counterexample). -/
theorem reachG_pos_exists (m : Maze) (h : ReachG m) :
    (alookup m.cells m.pos).isSome :=
  (reachG_inv m h).1

theorem reachG_pos_exists_witness :
    (alookup Maze.new.cells Maze.new.pos).isSome :=
  reachG_pos_exists Maze.new ReachG.init

/-! No operation ever writes kind Start, and the origin cell keeps its
kind under every operation except a tagging call made at the origin. -/

theorem amodify_start_origin (cells : List (Position × Cell)) (a : Position) (f : Cell → Cell)
    (hf : ∀ c, (f c).kind = Kind.Start → c.kind = Kind.Start)
    (h1 : ∀ p c, alookup cells p = some c → c.kind = Kind.Start → p = (0, 0)) :
    ∀ p c, alookup (amodify cells a f) p = some c → c.kind = Kind.Start → p = (0, 0) := by
  intro p c hp hk
  rw [alookup_amodify] at hp
  by_cases hap : a = p
  · rw [if_pos hap] at hp
    cases hl : alookup cells a with
    | none =>
      rw [hl] at hp
      exact Option.noConfusion hp
    | some c0 =>
      rw [hl] at hp
      have hfc : f c0 = c := Option.some.inj hp
      rw [← hap]
      exact h1 a c0 hl (hf c0 (by rw [hfc]; exact hk))
  · rw [if_neg hap] at hp
    exact h1 p c hp hk

theorem ainsert_start_origin (cells : List (Position × Cell)) (a : Position) (b : Cell)
    (hb : b.kind ≠ Kind.Start)
    (h1 : ∀ p c, alookup cells p = some c → c.kind = Kind.Start → p = (0, 0)) :
    ∀ p c, alookup (ainsert cells a b) p = some c → c.kind = Kind.Start → p = (0, 0) := by
  intro p c hp hk
  rw [alookup_ainsert] at hp
  by_cases hap : a = p
  · rw [if_pos hap] at hp
    rw [← Option.some.inj hp] at hk
    exact absurd hk hb
  · rw [if_neg hap] at hp
    exact h1 p c hp hk

theorem normCells_start_origin (cp : Position) (cells : List (Position × Cell))
    (h1 : ∀ p c, alookup cells p = some c → c.kind = Kind.Start → p = (0, 0)) :
    ∀ p c, alookup (normCells cp cells) p = some c → c.kind = Kind.Start → p = (0, 0) := by
  intro p c hp hk
  have hkk := normCells_lookup_kind cp cells p
  rw [hp] at hkk
  cases hl : alookup cells p with
  | none =>
    rw [hl] at hkk
    exact Option.noConfusion hkk
  | some c0 =>
    rw [hl] at hkk
    have hke : c.kind = c0.kind := Option.some.inj hkk
    exact h1 p c0 hl (by rw [← hke]; exact hk)

theorem reach_start_only_origin (m : Maze) (h : Reach m) :
    ∀ p c, alookup m.cells p = some c → c.kind = Kind.Start → p = (0, 0) := by
  induction h with
  | init =>
    intro p c hp hk
    have he : alookup Maze.new.cells p =
        if ((0, 0) : Position) = p then some (Cell.new (0, 0) Kind.Start) else none := rfl
    rw [he] at hp
    by_cases h0 : ((0, 0) : Position) = p
    · exact h0.symm
    · rw [if_neg h0] at hp
      exact Option.noConfusion hp
  | @step m0 m1 o hr hs ih =>
    have hnb_kind : ∀ (dd : Direction) (qq : Position) (c : Cell),
        (c.add_neighbor dd qq).kind = Kind.Start → c.kind = Kind.Start := by
      intro dd qq c hk
      rw [Cell.add_neighbor_kind] at hk
      exact hk
    cases o with
    | cell d =>
      simp only [applyOp, Maze.add_cell] at hs
      split at hs
      next c hcp =>
        split at hs
        next =>
          rw [← Option.some.inj hs]
          exact ih
        next hguard =>
          split at hs
          next => exact Option.noConfusion hs
          next cur hcur =>
            rw [← Option.some.inj hs]
            exact amodify_start_origin _ _ _ (hnb_kind d (stepPos m0.pos d))
              (amodify_start_origin _ _ _ (hnb_kind d.back m0.pos) ih)
      next hcp =>
        split at hs
        next => exact Option.noConfusion hs
        next cur hcur =>
          rw [← Option.some.inj hs]
          refine ainsert_start_origin _ _ _ ?_
            (amodify_start_origin _ _ _ (hnb_kind d (stepPos m0.pos d))
              (normCells_start_origin _ _ ih))
          intro hk
          rw [Cell.add_neighbor_kind] at hk
          exact Kind.noConfusion hk
    | checkpoint =>
      obtain ⟨mt, hmt, hm1⟩ := add_checkpoint_eq m0 m1 hs
      obtain ⟨-, hmtm⟩ := tagCurrent_eq m0 Kind.Checkpoint mt hmt
      subst hmtm
      subst hm1
      exact amodify_start_origin _ _ _ (fun c0 hk => Kind.noConfusion hk) ih
    | victim =>
      obtain ⟨-, hm1⟩ := tagCurrent_eq m0 Kind.Victim m1 hs
      subst hm1
      exact amodify_start_origin _ _ _ (fun c0 hk => Kind.noConfusion hk) ih
    | ramp =>
      obtain ⟨-, hm1⟩ := tagCurrent_eq m0 Kind.Ramp m1 hs
      subst hm1
      exact amodify_start_origin _ _ _ (fun c0 hk => Kind.noConfusion hk) ih
    | blue =>
      obtain ⟨-, hm1⟩ := tagCurrent_eq m0 Kind.Blue m1 hs
      subst hm1
      exact amodify_start_origin _ _ _ (fun c0 hk => Kind.noConfusion hk) ih
    | black =>
      obtain ⟨hcells, -, -, -, -⟩ := add_black_shape m0 m1 hs
      rw [hcells]
      exact amodify_start_origin _ _ _ (fun c0 hk => Kind.noConfusion hk) ih
    | recover =>
      have hm1 : m1 = m0.lack_of_progress := (Option.some.inj hs).symm
      subst hm1
      exact ih
    | move fuel =>
      simp only [applyOp] at hs
      cases hmv : Maze.move_one fuel m0 with
      | none =>
        rw [hmv] at hs
        exact Option.noConfusion hs
      | some rm =>
        rw [hmv] at hs
        obtain ⟨r1, m2⟩ := rm
        have hm12 : m2 = m1 := Option.some.inj hs
        subst hm12
        simp only [Maze.move_one] at hmv
        split at hmv
        next => exact Option.noConfusion hmv
        next mg hgd =>
          injection Option.some.inj hmv with h1 h2
          subst h2
          have hgm := get_direction_none_eq fuel m0 mg hgd
          subst hgm
          exact ih
        next d mg hgd =>
          injection Option.some.inj hmv with h1 h2
          obtain ⟨hcells, -, -, -, -⟩ := get_direction_cases fuel m0 d mg hgd
          rw [← h2]
          refine amodify_start_origin _ _ _ ?_ (by rw [hcells]; exact ih)
          intro c0 hk
          by_cases hu : c0.kind = Kind.Unknown
          · rw [if_pos hu] at hk
            exact Kind.noConfusion hk
          · rw [if_neg hu] at hk
            exact hk

theorem amodify_origin_other (cells : List (Position × Cell)) (a : Position) (f : Cell → Cell)
    (ha : a ≠ (0, 0))
    (h : ∃ c, alookup cells (0, 0) = some c ∧ c.kind = Kind.Start) :
    ∃ c, alookup (amodify cells a f) (0, 0) = some c ∧ c.kind = Kind.Start := by
  rw [alookup_amodify, if_neg ha]
  exact h

theorem amodify_origin_keep (cells : List (Position × Cell)) (a : Position) (f : Cell → Cell)
    (hf : ∀ c, c.kind = Kind.Start → (f c).kind = Kind.Start)
    (h : ∃ c, alookup cells (0, 0) = some c ∧ c.kind = Kind.Start) :
    ∃ c, alookup (amodify cells a f) (0, 0) = some c ∧ c.kind = Kind.Start := by
  obtain ⟨c0, hc0, hk0⟩ := h
  rw [alookup_amodify]
  by_cases ha : a = (0, 0)
  · rw [if_pos ha, ha, hc0]
    exact ⟨f c0, rfl, hf c0 hk0⟩
  · rw [if_neg ha]
    exact ⟨c0, hc0, hk0⟩

theorem ainsert_origin_other (cells : List (Position × Cell)) (a : Position) (b : Cell)
    (ha : a ≠ (0, 0))
    (h : ∃ c, alookup cells (0, 0) = some c ∧ c.kind = Kind.Start) :
    ∃ c, alookup (ainsert cells a b) (0, 0) = some c ∧ c.kind = Kind.Start := by
  rw [alookup_ainsert, if_neg ha]
  exact h

theorem normCells_origin (cp : Position) (cells : List (Position × Cell))
    (h : ∃ c, alookup cells (0, 0) = some c ∧ c.kind = Kind.Start) :
    ∃ c, alookup (normCells cp cells) (0, 0) = some c ∧ c.kind = Kind.Start := by
  obtain ⟨c0, hc0, hk0⟩ := h
  unfold normCells
  split_ifs
  · rw [alookup_shiftCells, hc0]
    exact ⟨bumpX c0, rfl, by rw [bumpX_kind]; exact hk0⟩
  · rw [alookup_shiftCells, hc0]
    exact ⟨bumpY c0, rfl, by rw [bumpY_kind]; exact hk0⟩
  · exact ⟨c0, hc0, hk0⟩

theorem reachNT_reach (m : Maze) (h : ReachNT m) : Reach m := by
  induction h with
  | init => exact Reach.init
  | step hr hs hg ih => exact Reach.step ih hs

theorem reachNT_origin_start (m : Maze) (h : ReachNT m) :
    ∃ c, alookup m.cells (0, 0) = some c ∧ c.kind = Kind.Start := by
  induction h with
  | init => exact ⟨Cell.new (0, 0) Kind.Start, rfl, rfl⟩
  | @step m0 m1 o hr hs hg ih =>
    have hnb_keep : ∀ (dd : Direction) (qq : Position) (c : Cell),
        c.kind = Kind.Start → (c.add_neighbor dd qq).kind = Kind.Start := by
      intro dd qq c hk
      rw [Cell.add_neighbor_kind]
      exact hk
    cases o with
    | cell d =>
      simp only [applyOp, Maze.add_cell] at hs
      split at hs
      next c hcp =>
        split at hs
        next =>
          rw [← Option.some.inj hs]
          exact ih
        next hguard =>
          split at hs
          next => exact Option.noConfusion hs
          next cur hcur =>
            rw [← Option.some.inj hs]
            exact amodify_origin_keep _ _ _ (hnb_keep d (stepPos m0.pos d))
              (amodify_origin_keep _ _ _ (hnb_keep d.back m0.pos) ih)
      next hcp =>
        split at hs
        next => exact Option.noConfusion hs
        next cur hcur =>
          rw [← Option.some.inj hs]
          have hne0 : stepPos m0.pos d ≠ (0, 0) := by
            intro hh
            obtain ⟨c0, hc0, -⟩ := ih
            rw [hh, hc0] at hcp
            exact Option.noConfusion hcp
          exact ainsert_origin_other _ _ _ hne0
            (amodify_origin_keep _ _ _ (hnb_keep d (stepPos m0.pos d))
              (normCells_origin _ _ ih))
    | checkpoint =>
      obtain ⟨mt, hmt, hm1⟩ := add_checkpoint_eq m0 m1 hs
      obtain ⟨-, hmtm⟩ := tagCurrent_eq m0 Kind.Checkpoint mt hmt
      subst hmtm
      subst hm1
      exact amodify_origin_other _ _ _ (hg (Or.inl rfl)) ih
    | victim =>
      obtain ⟨-, hm1⟩ := tagCurrent_eq m0 Kind.Victim m1 hs
      subst hm1
      exact amodify_origin_other _ _ _ (hg (Or.inr (Or.inl rfl))) ih
    | ramp =>
      obtain ⟨-, hm1⟩ := tagCurrent_eq m0 Kind.Ramp m1 hs
      subst hm1
      exact amodify_origin_other _ _ _ (hg (Or.inr (Or.inr (Or.inl rfl)))) ih
    | blue =>
      obtain ⟨-, hm1⟩ := tagCurrent_eq m0 Kind.Blue m1 hs
      subst hm1
      exact amodify_origin_other _ _ _ (hg (Or.inr (Or.inr (Or.inr (Or.inl rfl))))) ih
    | black =>
      obtain ⟨hcells, -, -, -, -⟩ := add_black_shape m0 m1 hs
      rw [hcells]
      exact amodify_origin_other _ _ _ (hg (Or.inr (Or.inr (Or.inr (Or.inr rfl))))) ih
    | recover =>
      have hm1 : m1 = m0.lack_of_progress := (Option.some.inj hs).symm
      subst hm1
      exact ih
    | move fuel =>
      simp only [applyOp] at hs
      cases hmv : Maze.move_one fuel m0 with
      | none =>
        rw [hmv] at hs
        exact Option.noConfusion hs
      | some rm =>
        rw [hmv] at hs
        obtain ⟨r1, m2⟩ := rm
        have hm12 : m2 = m1 := Option.some.inj hs
        subst hm12
        simp only [Maze.move_one] at hmv
        split at hmv
        next => exact Option.noConfusion hmv
        next mg hgd =>
          injection Option.some.inj hmv with h1 h2
          subst h2
          have hgm := get_direction_none_eq fuel m0 mg hgd
          subst hgm
          exact ih
        next d mg hgd =>
          injection Option.some.inj hmv with h1 h2
          obtain ⟨hcells, -, -, -, -⟩ := get_direction_cases fuel m0 d mg hgd
          rw [← h2]
          refine amodify_origin_keep _ _ _ (fun c0 hk => ?_) (by rw [hcells]; exact ih)
          have hu : ¬c0.kind = Kind.Unknown := by
            rw [hk]
            intro hh
            exact Kind.noConfusion hh
          rw [if_neg hu]
          exact hk

/-- C5 counterexample: a single public operation, `add_checkpoint()`
issued in the initial state, reaches `mCheckNew`, in which the cell
created at the origin has kind Checkpoint and no cell of kind Start
exists anywhere: the tagging operations overwrite the kind of the
current cell unconditionally, Start included. -/
theorem start_overwritten :
    Reach mCheckNew ∧
    alookup mCheckNew.cells (0, 0) =
      some { pos := (0, 0), kind := Kind.Checkpoint, neighbors := [] } ∧
    ∀ p c, alookup mCheckNew.cells p = some c → c.kind ≠ Kind.Start := by
  refine ⟨@Reach.step Maze.new mCheckNew Op.checkpoint Reach.init rfl, rfl, ?_⟩
  intro p c h
  have he : alookup mCheckNew.cells p =
      if ((0, 0) : Position) = p then
        some { pos := (0, 0), kind := Kind.Checkpoint, neighbors := [] }
      else none := rfl
  rw [he] at h
  by_cases h0 : ((0, 0) : Position) = p
  · rw [if_pos h0] at h
    rw [← Option.some.inj h]
    intro hk
    exact Kind.noConfusion hk
  · rw [if_neg h0] at h
    exact Option.noConfusion h

/-- C5 amended: the store keys are never rewritten and no operation ever
assigns kind Start, so in every reachable state any cell whose kind is
Start sits at the origin key (0,0) - there is at most one Start cell,
the one created at construction.  The origin cell keeps kind Start under
`add_cell`, `move_one` and `lack_of_progress`, and under tagging calls
made away from the origin; but a tagging call
(`add_checkpoint`/`add_victim`/`add_ramp`/`add_blue`/`add_black`) made
while the current position is the origin overwrites Start (see the
counterexample). -/
theorem start_origin_spec :
    (∀ m, Reach m → ∀ p c, alookup m.cells p = some c → c.kind = Kind.Start → p = (0, 0)) ∧
    (∀ m, ReachNT m → ∃ c, alookup m.cells (0, 0) = some c ∧ c.kind = Kind.Start) :=
  ⟨reach_start_only_origin, reachNT_origin_start⟩

theorem start_origin_spec_witness :
    ((0, 0) : Position) = (0, 0) ∧
    ∃ c, alookup mLink.cells (0, 0) = some c ∧ c.kind = Kind.Start :=
  ⟨start_origin_spec.1 Maze.new Reach.init (0, 0) (Cell.new (0, 0) Kind.Start) rfl rfl,
   start_origin_spec.2 mLink
     (@ReachNT.step Maze.new mLink (Op.cell Direction.Down) ReachNT.init rfl
       (fun hh => by rcases hh with h | h | h | h | h <;> exact Op.noConfusion h))⟩
